import Mathlib

set_option autoImplicit false

/-!
Shallow embedding of the xvalid validation library.

The embedding models the rule-builder (`Rules`, `Rules.Field`, `Rules.Struct`,
`Rules.Validate`, `Rules.MarshalJSON`, `getFieldName`, `findStructField`,
`structToMap`, `jsonFieldName`, `Errors.Unwrap`) and the leaf validators
(`RequiredValidator`, `MinLengthValidator`, `MinValidator`, ...).

Go `any` values, as observed through `reflect`, are modelled by the mutual
inductive family `GoVal`; Go panics are modelled by `Except String`; a Go
`error` result that may be nil is modelled by `Option`.
-/

/-! ## Go values as seen through reflect -/

mutual
/-- A Go `any` value as observed by `reflect.ValueOf`.
`vnil` is the nil interface (an invalid `reflect.Value`); pointers, slices
and maps distinguish their nil value from a non-nil (possibly empty) one;
`vstruct` carries the declared fields in declaration order. -/
inductive GoVal : Type where
  | vnil
  | vbool (b : Bool)
  | vint (n : Int)
  | vfloat (q : ℚ)
  | vstr (s : String)
  | vptrNil
  | vptr (v : GoVal)
  | vsliceNil
  | vslice (elems : GoVals)
  | varr (elems : GoVals)
  | vmapNil
  | vmap (entries : GoEntries)
  | vstruct (fields : GoValFields)

/-- A list of Go values (slice/array elements). -/
inductive GoVals : Type where
  | nil
  | cons (v : GoVal) (vs : GoVals)

/-- Entries of a `map[string]any` value. -/
inductive GoEntries : Type where
  | nil
  | cons (k : String) (v : GoVal) (es : GoEntries)

/-- Struct fields of a struct value, in declaration order: declared name,
raw `json` tag value, whether the field is anonymous (embedded), whether it
is exported (`CanInterface`), and the field's value. -/
inductive GoValFields : Type where
  | nil
  | cons (name tag : String) (anonymous exported : Bool) (val : GoVal)
      (fs : GoValFields)
end

def GoVals.length : GoVals → Nat
  | .nil => 0
  | .cons _ vs => 1 + vs.length

def GoEntries.length : GoEntries → Nat
  | .nil => 0
  | .cons _ _ es => 1 + es.length

/-- `m[k]` on a `map[string]any`: `none` models a missing key (Go yields the
nil interface). -/
def GoEntries.lookup : GoEntries → String → Option GoVal
  | .nil, _ => none
  | .cons k' v es, k => if k' = k then some v else es.lookup k

/-- `m[k] = v` on a `map[string]any` (insert or overwrite). -/
def GoEntries.set : GoEntries → String → GoVal → GoEntries
  | .nil, k, v => .cons k v .nil
  | .cons k' v' es, k, v =>
      if k' = k then .cons k v es else .cons k' v' (es.set k v)

mutual
/-- `reflect.Value.IsZero`.  In Go it panics on an invalid value; the one
caller below (`RequiredValidator.Validate`) tests `IsValid` first, so the
`vnil` branch is unreachable there (we return `true`, the value that keeps
the caller's behaviour identical either way). -/
def goIsZero : GoVal → Bool
  | .vnil => true
  | .vbool b => !b
  | .vint n => n == 0
  | .vfloat q => q == 0
  | .vstr s => s == ""
  | .vptrNil => true
  | .vptr _ => false
  | .vsliceNil => true
  | .vslice _ => false
  | .vmapNil => true
  | .vmap _ => false
  | .varr es => goValsAllZero es
  | .vstruct fs => goFieldValsAllZero fs

/-- `IsZero` of an array: all elements zero. -/
def goValsAllZero : GoVals → Bool
  | .nil => true
  | .cons v vs => goIsZero v && goValsAllZero vs

/-- `IsZero` of a struct: all fields zero. -/
def goFieldValsAllZero : GoValFields → Bool
  | .nil => true
  | .cons _ _ _ _ v fs => goIsZero v && goFieldValsAllZero fs
end

/-- `reflect.Value.IsValid`: false exactly for the nil interface. -/
def goIsValid : GoVal → Bool
  | .vnil => false
  | _ => true

/-- `kind == reflect.Ptr`.  (`reflect.ValueOf` of an `any` never yields the
`Interface` kind, so the `kind == Interface` disjunct of the source is
vacuous in this model.) -/
def goIsPtrKind : GoVal → Bool
  | .vptrNil => true
  | .vptr _ => true
  | _ => false

/-- `kind == Array || kind == Slice` (the part_002 `RequiredValidator`). -/
def goIsArrSliceKind : GoVal → Bool
  | .vsliceNil => true
  | .vslice _ => true
  | .varr _ => true
  | _ => false

/-- `kind == Array || kind == Slice || kind == Map` (the `RequiredValidator`
of validators.go, lines 586-603). -/
def goIsArrSliceMapKind : GoVal → Bool
  | .vsliceNil => true
  | .vslice _ => true
  | .varr _ => true
  | .vmapNil => true
  | .vmap _ => true
  | _ => false

/-- `v.Elem().IsZero()` for a pointer value.  On a nil pointer `Elem` is the
invalid value; both callers only reach this after `v.IsZero()` was false,
so the pointer is non-nil there.  Non-pointer inputs are likewise
unreachable at the call sites. -/
def goElemIsZero : GoVal → Bool
  | .vptr v => goIsZero v
  | _ => false

/-- `v.Len()` for array/slice/map kinds (`len` of a nil slice/map is 0). -/
def goLen : GoVal → Nat
  | .vsliceNil => 0
  | .vslice es => es.length
  | .varr es => es.length
  | .vmapNil => 0
  | .vmap es => es.length
  | _ => 0

/-! ## Errors (part_000) -/

/-- `validationError` from part_000: a (message, field name) pair.  The
dotted field path is stored in `fieldName`. -/
structure VErr : Type where
  message : String
  fieldName : String
  deriving DecidableEq, Repr

/-- `createError` from part_002. -/
def createError (name custom fallback : String) : VErr :=
  if custom ≠ "" then ⟨custom, name⟩ else ⟨fallback, name⟩

/-- `Errors` is a list of `Error`. -/
def Errors : Type := List VErr

/-- `Errors.Unwrap` from part_000, translated literally:
`errs := make([]error, len(v))` creates `len v` nil errors (a Go `error`
that may be nil is `Option VErr`), and the range loop then appends every
element of `v` to that slice. -/
def Errors.Unwrap (v : Errors) : List (Option VErr) :=
  List.replicate (List.length v) none ++ v.map some

/-- `joinSentences` from part_000. -/
def joinSentences (list : List String) : String :=
  if list.length = 0 then "" else String.intercalate ". " list ++ "."

/-! ## Leaf validators (part_002 unless noted) -/

/-- `RequiredValidator` (part_002): name and override message. -/
structure RequiredValidator : Type where
  name : String
  message : String

/-- `RequiredValidator.Validate` from part_002 (array/slice length check,
no map case), translated branch by branch. -/
def RequiredValidator.Validate (c : RequiredValidator) (value : GoVal) :
    Option VErr :=
  let zero : Bool :=
    if !goIsValid value then true
    else if goIsZero value then true
    else if goIsPtrKind value && goElemIsZero value then true
    else if goIsArrSliceKind value && goLen value == 0 then true
    else false
  if zero then
    some (createError c.name c.message ("Please enter the " ++ c.name))
  else none

/-- The field-path error pair used by the validators.go revision whose
validators carry a `[]string` field. -/
structure PathErr : Type where
  message : String
  fieldPath : List String
  deriving DecidableEq, Repr

/-- `createError(field []string, custom, fallback string)` from
validators.go (line 1214). -/
def createErrorP (field : List String) (custom fallback : String) : PathErr :=
  if custom ≠ "" then ⟨custom, field⟩ else ⟨fallback, field⟩

/-- Modelled from the spec: `jsonFieldName(field []string)` is called by the
validators.go revision but defined in a rule-builder revision not present
under src/; per the spec the serialized field name is "the terminal
(innermost) export-name segment only". -/
def jsonFieldNameOfPath (field : List String) : String :=
  field.getLastD ""

/-- `RequiredValidator` of validators.go lines 563-620: field path and
override message. -/
structure RequiredFieldValidator : Type where
  field : List String
  message : String

/-- `RequiredValidator.Validate` from validators.go lines 586-603: same as
the part_002 version except that the length check also covers the Map
kind. -/
def RequiredFieldValidator.Validate (c : RequiredFieldValidator)
    (value : GoVal) : Option PathErr :=
  let zero : Bool :=
    if !goIsValid value then true
    else if goIsZero value then true
    else if goIsPtrKind value && goElemIsZero value then true
    else if goIsArrSliceMapKind value && goLen value == 0 then true
    else false
  if zero then
    some (createErrorP c.field c.message
      ("Please enter the " ++ jsonFieldNameOfPath c.field))
  else none

/-- A JSON scalar appearing in a validator descriptor. -/
inductive JVal : Type where
  | jstr (s : String)
  | jint (n : Int)
  deriving DecidableEq, Repr

/-- `MinLengthValidator` (part_002). -/
structure MinLengthValidator : Type where
  name : String
  message : String
  min : Int
  optional : Bool

/-- `MinLengthValidator.Validate` (part_002): asserts the value is a string
(`value.(string)` panics otherwise), skips empty strings when optional,
and compares the rune count with the minimum. -/
def MinLengthValidator.Validate (c : MinLengthValidator) (value : GoVal) :
    Except String (Option VErr) :=
  match value with
  | .vstr str =>
      if c.optional && str == "" then .ok none
      else if (str.toList.length : Int) < c.min then
        .ok (some (createError c.name c.message
          ("Please lengthen " ++ c.name ++ " to " ++ toString c.min ++
            " characters or more")))
      else .ok none
  | _ => .error "interface conversion: interface is not string"

/-- `MinLengthValidator.MarshalJSON` (part_002, lines 123-129): the
descriptor carries `rule` and `min`, and `message` only when non-empty
(the `omitempty` tag). -/
def MinLengthValidator.MarshalJSON (c : MinLengthValidator) :
    List (String × JVal) :=
  [("rule", .jstr "minLength"), ("min", .jint c.min)] ++
    (if c.message = "" then [] else [("message", .jstr c.message)])

/-- `isLess` (part_002) at integer type. -/
def isLess (value min : Int) (optional : Bool) : Bool :=
  if optional && value == 0 then false else decide (value < min)

/-- `isLess` (part_002) at floating-point type, with floats modelled as
rationals. -/
def isLessQ (value min : ℚ) (optional : Bool) : Bool :=
  if optional && value == 0 then false else decide (value < min)

/-- `MinValidator` (part_002). -/
structure MinValidator : Type where
  name : String
  message : String
  min : Int
  optional : Bool

/-- `MinValidator.Validate` (part_002, lines 234-252): switches on the
reflect kind; int kinds go through `toInt64`/`isLess`, float kinds through
`toFloat64`/`isLess`, and every other kind panics
(`type not supported`). -/
def MinValidator.Validate (c : MinValidator) (value : GoVal) :
    Except String (Option VErr) :=
  let newError : VErr :=
    createError c.name c.message
      ("Please increase " ++ c.name ++ " to be " ++ toString c.min ++
        " or more")
  match value with
  | .vint n => .ok (if isLess n c.min c.optional then some newError else none)
  | .vfloat q =>
      .ok (if isLessQ q (c.min : ℚ) c.optional then some newError else none)
  | _ => .error "type not supported"

/-- The kinds accepted by `MinValidator.Validate` / `MaxValidator.Validate`. -/
def goNumericKind : GoVal → Bool
  | .vint _ => true
  | .vfloat _ => true
  | _ => false

/-- `FieldFuncValidator` (part_002): custom field function. -/
structure FieldFuncValidator : Type where
  name : String
  message : String
  checker : String → GoVal → Option VErr

/-- `FieldFuncValidator.HtmlCompatible` (part_002, lines 568-570): custom
field functions are never exportable. -/
def FieldFuncValidator.HtmlCompatible (_ : FieldFuncValidator) : Bool :=
  false

/-- `StructFuncValidator` (part_002): custom whole-struct function. -/
structure StructFuncValidator : Type where
  name : String
  message : String
  checker : GoVal → Option VErr

/-- `StructFuncValidator.HtmlCompatible` (part_002, lines 611-614). -/
def StructFuncValidator.HtmlCompatible (_ : StructFuncValidator) : Bool :=
  false

/-! ## Rule engine (part_000) -/

/-- `strings.Split` on a single-character separator (the only form the
source uses: "," and "."), defined over the character list so that it
evaluates inside proofs.  As in Go, the empty string yields `[""]`. -/
def goSplitChars (sep : Char) : List Char → List (List Char)
  | [] => [[]]
  | c :: rest =>
      match goSplitChars sep rest with
      | [] => [[]]
      | x :: xs => if c = sep then [] :: x :: xs else (c :: x) :: xs

/-- `strings.Split(s, sep)` for a one-character `sep`. -/
def goSplit (sep : Char) (s : String) : List String :=
  (goSplitChars sep s.data).map fun l => ⟨l⟩

/-- The export name of a struct field: the first comma-delimited token of
the `json` tag when non-empty, otherwise the declared field name
(`strings.Split(sf.Tag.Get("json"), ",")[0]`, inlined at part_000 lines
187-190 and 234-236). -/
def jsonTagName (tag name : String) : String :=
  let t := match goSplit ',' tag with
    | [] => ""
    | x :: _ => x
  if t = "" then name else t

mutual
/-- `structToMap` (part_000 lines 229-248): converts a struct value to a
nested `map[string]any`, keyed by export names, recursing into anonymous
fields and skipping unexported ones.  `reflect` panics (`NumField` on a
non-struct, including inside an anonymous field) are modelled by
`Except.error`. -/
def structToMap : GoVal → Except String GoEntries
  | .vstruct fs => structToMapFields fs
  | _ => .error "reflect: NumField of non-struct type"

/-- The loop of `structToMap`: the source iterates the fields in reverse
declaration order, so the entries for the tail (higher indices) are
written first and the head field overwrites last. -/
def structToMapFields : GoValFields → Except String GoEntries
  | .nil => .ok .nil
  | .cons name tag anonymous exported v fs => do
      let m ← structToMapFields fs
      if exported then
        if anonymous then do
          let sub ← structToMap v
          .ok (m.set (jsonTagName tag name) (GoVal.vmap sub))
        else
          .ok (m.set (jsonTagName tag name) v)
      else
        .ok m
end

/-- A validator as stored in a rule chain, after registration: its assigned
dotted name (empty for whole-struct validators), its `Validate` method
(`Except.error` models a panic, the inner `Option` a nil `Error` result)
and its `CanExport` flag. -/
structure RuleValidator : Type where
  name : String
  run : GoVal → Except String (Option VErr)
  exportable : Bool

/-- The walk of one field validator's path inside `Rules.Validate`
(part_000 lines 120-129), translated literally: for each path segment, a
`map[string]any` value descends (a nil map descends to the empty map),
and any other value - including the nil interface for a missing key -
overwrites `err` with the result of invoking the validator on it. -/
def walkGo (f : GoVal → Except String (Option VErr)) :
    GoEntries → List String → Option VErr → Except String (Option VErr)
  | _, [], err => .ok err
  | es, p :: ps, err =>
      match es.lookup p with
      | some (GoVal.vmap es2) => walkGo f es2 ps err
      | some GoVal.vmapNil => walkGo f GoEntries.nil ps err
      | some v2 => do
          let e ← f v2
          walkGo f es ps e
      | none => do
          let e ← f GoVal.vnil
          walkGo f es ps e

/-- One iteration of the validator loop of `Rules.Validate`: a validator
with an empty name is invoked on the whole subject, otherwise its name is
split on "." and walked through the map. -/
def validatorOutcome (subject : GoVal) (vm : GoEntries)
    (v : RuleValidator) : Except String (Option VErr) :=
  if v.name = "" then v.run subject
  else walkGo v.run vm (goSplit '.' v.name) none

/-- The validator loop of `Rules.Validate` (part_000 lines 113-134), with
its `errs` accumulator: each non-nil outcome is appended in registration
order. -/
def runValidators (subject : GoVal) (vm : GoEntries) :
    List RuleValidator → List VErr → Except String (List VErr)
  | [], errs => .ok errs
  | v :: vs, errs => do
      let err ← validatorOutcome subject vm v
      runValidators subject vm vs
        (match err with
          | none => errs
          | some e => errs ++ [e])

/-- `Rules` (part_000): the ordered validator chain.  (`structPtr` is also
stored by the source but is read only by `Field`, which is modelled
separately; `Validate` and `MarshalJSON` never read it.) -/
structure Rules : Type where
  validators : List RuleValidator

/-- `Rules.Validate` (part_000 lines 110-139): decompose the subject, run
every validator, and return the collected `Errors` if non-empty, else the
nil error. -/
def Rules.Validate (r : Rules) (subject : GoVal) :
    Except String (Option (List VErr)) := do
  let vm ← structToMap subject
  let errs ← runValidators subject vm r.validators []
  .ok (if errs.length > 0 then some errs else none)

/-- Declarative restatement of the collection performed by
`Rules.Validate`: the outcome of each validator, in registration order,
keeping the non-nil ones. -/
def outcomesList (subject : GoVal) (vm : GoEntries) :
    List RuleValidator → Except String (List VErr)
  | [] => .ok []
  | v :: vs => do
      let o ← validatorOutcome subject vm v
      let os ← outcomesList subject vm vs
      .ok ((match o with | none => [] | some e => [e]) ++ os)

/-- Whether a path walk descends into a nested map at every segment
(including the final one); in that case the loop body never reaches its
default branch. -/
def allMapSteps : GoEntries → List String → Bool
  | _, [] => true
  | es, p :: ps =>
      match es.lookup p with
      | some (GoVal.vmap es2) => allMapSteps es2 ps
      | some GoVal.vmapNil => allMapSteps GoEntries.nil ps
      | _ => false

/-- `jsonFieldName` (part_000 lines 250-253): the last dotted segment. -/
def jsonFieldName (field : String) : String :=
  (goSplit '.' field).getLastD ""

/-- `rmap[name] = append(rules, v)` of `Rules.MarshalJSON`: append `v` to
the group of key `k`, creating the group if missing.  (The group list is
looked up and re-stored; group identity is by key, so an association list
keyed by first occurrence is a faithful model of the Go map - the JSON
encoder orders keys itself.) -/
def rmapAdd : List (String × List RuleValidator) → String → RuleValidator →
    List (String × List RuleValidator)
  | [], k, v => [(k, [v])]
  | (k', l) :: rest, k, v =>
      if k' = k then (k', l ++ [v]) :: rest
      else (k', l) :: rmapAdd rest k v

/-- Lookup in the association list built by `rmapAdd`. -/
def rmapLookup : List (String × List RuleValidator) → String →
    Option (List RuleValidator)
  | [], _ => none
  | (k', l) :: rest, k => if k' = k then some l else rmapLookup rest k

/-- The loop of `Rules.MarshalJSON` (part_000 lines 146-162): walk the
validators in registration order, skip the non-exportable ones, and group
the rest under the terminal segment of their name. -/
def buildRmap : List RuleValidator →
    List (String × List RuleValidator) →
    List (String × List RuleValidator)
  | [], m => m
  | v :: vs, m =>
      buildRmap vs (if v.exportable then rmapAdd m (jsonFieldName v.name) v else m)

/-- `Rules.MarshalJSON` (part_000), at the level of the grouped structure
that is handed to the JSON encoder. -/
def Rules.MarshalJSON (r : Rules) : List (String × List RuleValidator) :=
  buildRmap r.validators []

/-- The part_002 `RequiredValidator` wrapped as a bound rule validator
(its `Validate` never panics). -/
def requiredRule (name message : String) : RuleValidator :=
  ⟨name, fun v => .ok (RequiredValidator.Validate ⟨name, message⟩ v), true⟩

/-! ## Go slice semantics for the validator chain (Rules.Field / Rules.Struct)

`Rules` has a value receiver, so `Field`/`Struct` operate on a copy of the
slice header, but `append` may write into the shared backing array when
spare capacity exists.  Validators are opaque heap objects here,
identified by numbers. -/

/-- A validator identity (the interface value stored in the slice). -/
abbrev VId := Nat

/-- A Go slice header: backing array identity, length, capacity. -/
structure GoSlice : Type where
  arr : Nat
  len : Nat
  cap : Nat
  deriving DecidableEq, Repr

/-- The heap of backing arrays, addressed by `GoSlice.arr`; each array's
list has exactly the capacity it was allocated with. -/
abbrev SliceStore := List (List VId)

/-- The elements a slice header currently exposes. -/
def sliceView (st : SliceStore) (s : GoSlice) : List VId :=
  (st.getD s.arr []).take s.len

/-- The capacity chosen by Go's `growslice` for small element counts:
`needed` when it exceeds twice the old capacity, else double the old
capacity.  (The runtime may round this up to a size class; for the
16-byte interface elements and small lengths used below the sequence
0, 1, 2, 4, ... is exact.) -/
def growCap (oldCap needed : Nat) : Nat :=
  if 2 * oldCap < needed then needed else 2 * oldCap

/-- `s = append(s, v)` for a single element: write in place when capacity
allows, else allocate a grown copy. -/
def sliceAppend1 (st : SliceStore) (s : GoSlice) (v : VId) :
    SliceStore × GoSlice :=
  if s.len < s.cap then
    (st.set s.arr ((st.getD s.arr []).set s.len v), ⟨s.arr, s.len + 1, s.cap⟩)
  else
    let ncap := growCap s.cap (s.len + 1)
    let newArr := sliceView st s ++ v :: List.replicate (ncap - (s.len + 1)) 0
    (st ++ [newArr], ⟨st.length, s.len + 1, ncap⟩)

/-- Write consecutive elements starting at index `i`. -/
def writeAll (a : List VId) (i : Nat) : List VId → List VId
  | [] => a
  | v :: vs => writeAll (a.set i v) (i + 1) vs

/-- `s = append(s, vs...)`: one growth decision for the batch. -/
def sliceAppendMany (st : SliceStore) (s : GoSlice) (vs : List VId) :
    SliceStore × GoSlice :=
  if s.len + vs.length ≤ s.cap then
    (st.set s.arr (writeAll (st.getD s.arr []) s.len vs),
      ⟨s.arr, s.len + vs.length, s.cap⟩)
  else
    let ncap := growCap s.cap (s.len + vs.length)
    let newArr :=
      sliceView st s ++ vs ++ List.replicate (ncap - (s.len + vs.length)) 0
    (st ++ [newArr], ⟨st.length, s.len + vs.length, ncap⟩)

/-- The `Rules` value for the aliasing analysis: just the slice header of
`validators` (`structPtr` plays no role in the list's identity). -/
structure SRules : Type where
  validators : GoSlice
  deriving DecidableEq, Repr

/-- `New` (part_000 lines 87-92): `make([]Validator, 0)` allocates a fresh
empty backing array. -/
def sNew (st : SliceStore) : SliceStore × SRules :=
  (st ++ [[]], ⟨⟨st.length, 0, 0⟩⟩)

/-- `Rules.Field` (part_000 lines 95-101): the loop appends the given
validators one at a time to the receiver copy's slice.  (`SetName`
mutates each validator object itself, not the list, and is outside this
model.) -/
def SRules.Field (st : SliceStore) (r : SRules) (vs : List VId) :
    SliceStore × SRules :=
  let p := vs.foldl
    (fun (p : SliceStore × GoSlice) v => sliceAppend1 p.1 p.2 v)
    (st, r.validators)
  (p.1, ⟨p.2⟩)

/-- `Rules.Struct` (part_000 lines 104-107): a single variadic append. -/
def SRules.Struct (st : SliceStore) (r : SRules) (vs : List VId) :
    SliceStore × SRules :=
  let p := sliceAppendMany st r.validators vs
  (p.1, ⟨p.2⟩)

/-- A slice header consistent with the store. -/
def SliceWF (st : SliceStore) (s : GoSlice) : Prop :=
  s.len ≤ s.cap ∧ s.arr < st.length ∧ s.cap ≤ (st.getD s.arr []).length

/-! ## Field resolver (part_000 lines 166-217)

Record types with their memory layout: a field's address is the struct's
base address plus the sum of the sizes of the fields declared before it
(the model ignores alignment padding, which only renumbers addresses).
`reflect.StructField` data is reduced to what `getFieldName` reads:
declared name, `json` tag, `Anonymous` flag. -/

mutual
/-- A Go type as laid out in memory: a non-struct type of a given size, or
a struct with its declared fields. -/
inductive GoType : Type where
  | leaf (sz : Nat)
  | strct (fields : GoFields)

/-- Struct fields in declaration order: name, raw `json` tag, `Anonymous`
flag, type. -/
inductive GoFields : Type where
  | nil
  | cons (name tag : String) (anonymous : Bool) (ty : GoType) (fs : GoFields)
end

mutual
/-- The size of a value of this type. -/
def goSize : GoType → Nat
  | .leaf sz => sz
  | .strct fs => goSizeF fs

/-- Total size of a field list. -/
def goSizeF : GoFields → Nat
  | .nil => 0
  | .cons _ _ _ ty fs => goSize ty + goSizeF fs
end

/-- What `getFieldName` reads from a matched `reflect.StructField`. -/
structure SField : Type where
  name : String
  tag : String
  anonymous : Bool
  deriving DecidableEq, Repr

mutual
/-- `findStructField` (part_000 lines 199-217) on a struct value of type
`t` at address `base`, searching for the field whose address is `ptr`,
with the already-accumulated `results`.  `none` models the `reflect`
panic that recursing into an anonymous non-struct field raises
(`NumField` of a non-struct). -/
def findStructField (ptr base : Nat) :
    GoType → List SField → Option (List SField)
  | .leaf _, _ => none
  | .strct fs, results => findStructFieldLoop ptr base fs 0 results

/-- The `for i := structValue.NumField() - 1; i >= 0; i--` loop of
`findStructField`: the source scans fields in reverse declaration order,
so the tail of the list (the higher indices) is examined first, and the
head field is reached only when the scan of the tail fell through (which
is exactly when the tail's recursion returned `results` unchanged; every
genuine `return` inside the loop yields a strictly longer list). -/
def findStructFieldLoop (ptr base : Nat) :
    GoFields → Nat → List SField → Option (List SField)
  | .nil, _, results => some results
  | .cons name tag anonymous ty fs, off, results => do
      let res ← findStructFieldLoop ptr base fs (off + goSize ty) results
      if results.length < res.length then
        some res
      else
        if ptr = base + off then
          if anonymous then
            findStructField ptr (base + off) ty (results ++ [⟨name, tag, anonymous⟩])
          else
            some (results ++ [⟨name, tag, anonymous⟩])
        else if anonymous then do
          let tmp ← findStructField ptr (base + off) ty
            (results ++ [⟨name, tag, anonymous⟩])
          if results.length + 1 < tmp.length then some tmp else some results
        else
          some results
end

/-- An argument passed for `structPtr` / `fieldPtr`: a non-pointer value
(including the nil interface), a typed nil pointer, or a non-nil pointer
to a value of type `ty` at address `addr`. -/
inductive GoPtrArg : Type where
  | notPtr
  | nilPtr
  | ref (addr : Nat) (ty : GoType)

/-- The export-name of a matched field (part_000 lines 186-191). -/
def sfJsonName (f : SField) : String :=
  jsonTagName f.tag f.name

/-- The tail of `getFieldName` after the argument checks: run the search
from an empty accumulator, panic (`none`) when nothing was found, else
join the export-name segments with dots. -/
def getFieldNameFound (base ptr : Nat) (t : GoType) : Option String := do
  let fields ← findStructField ptr base t []
  if fields.length = 0 then none
  else some (String.intercalate "." (fields.map sfJsonName))

/-- `getFieldName` (part_000 lines 166-194).  Panics (`none`) when the
struct reference is not a pointer, is nil, or points to a non-struct, and
when the field reference is not a pointer; a typed nil field pointer has
`Pointer() == 0`. -/
def getFieldName (structPtr fieldPtr : GoPtrArg) : Option String :=
  match structPtr with
  | .notPtr => none
  | .nilPtr => none
  | .ref base t =>
      match t with
      | .leaf _ => none
      | .strct fs =>
          match fieldPtr with
          | .notPtr => none
          | .nilPtr => getFieldNameFound base 0 (.strct fs)
          | .ref faddr _ => getFieldNameFound base faddr (.strct fs)

/-- The field (and its type) at declaration index `i`. -/
def nthFieldT : GoFields → Nat → Option (SField × GoType)
  | .nil, _ => none
  | .cons name tag anonymous ty _, 0 => some (⟨name, tag, anonymous⟩, ty)
  | .cons _ _ _ _ fs, n + 1 => nthFieldT fs n

/-- The offset of the field at declaration index `i` (sum of the sizes of
the fields before it). -/
def offsetAt : GoFields → Nat → Nat
  | .nil, _ => 0
  | .cons _ _ _ _ _, 0 => 0
  | .cons _ _ _ ty fs, n + 1 => goSize ty + offsetAt fs n

/-- A descent path: a non-empty list of field indices descending through
anonymous struct fields; returns the traversed fields (outer to inner)
and the target's offset from the record's base. -/
def pathInfo : GoType → List Nat → Option (List SField × Nat)
  | .strct fs, [i] =>
      match nthFieldT fs i with
      | none => none
      | some (f, _) => some ([f], offsetAt fs i)
  | .strct fs, i :: j :: is =>
      match nthFieldT fs i with
      | none => none
      | some (f, ty) =>
          if f.anonymous then
            match pathInfo ty (j :: is) with
            | none => none
            | some (gs, o) => some (f :: gs, offsetAt fs i + o)
          else none
  | _, _ => none

/-- Whether the last traversed field is a concrete (non-anonymous) one. -/
def lastIsConcrete : List SField → Bool
  | [] => false
  | [f] => !f.anonymous
  | _ :: f :: fs => lastIsConcrete (f :: fs)

mutual
/-- Well-formed record types for the resolver theorems: non-struct types
have positive size, structs are non-empty, and anonymous fields are
structs (recursing into an anonymous non-struct panics in Go). -/
def wfType : GoType → Bool
  | .leaf sz => decide (0 < sz)
  | .strct .nil => false
  | .strct (.cons name tag anonymous ty fs) =>
      wfFields (.cons name tag anonymous ty fs)

/-- Every field well-formed, and anonymous only for struct types. -/
def wfFields : GoFields → Bool
  | .nil => true
  | .cons _ _ anonymous ty fs =>
      (!anonymous || (match ty with | .strct _ => true | .leaf _ => false)) &&
        wfType ty && wfFields fs
end

/-! ## Concrete instances used by the theorems below -/

/-- `type Inner2 struct { Deep int `json:"deep"` }` -/
def exInner2 : GoType := .strct (.cons "Deep" "deep" false (.leaf 8) .nil)

/-- `type Inner struct { Inner2 `json:"inner2"`; X int }` (embedded Inner2). -/
def exInner : GoType :=
  .strct (.cons "Inner2" "inner2" true exInner2
    (.cons "X" "" false (.leaf 4) .nil))

/-- `type Outer struct { Name string `json:"name"`; Inner }` (embedded Inner). -/
def exOuter : GoType :=
  .strct (.cons "Name" "name" false (.leaf 16) (.cons "Inner" "" true exInner .nil))

/-- A record ending in an embedded empty struct:
`type Fb struct { X int; E struct{} }` with `E` embedded; `E`'s address is
one past `X`. -/
def exFallback : GoType :=
  .strct (.cons "X" "" false (.leaf 4) (.cons "E" "" true (.strct .nil) .nil))

/-- A subject `struct { A int `json:"a"`; B string `json:"b"` }` with
`A = 1`, `B = "x"`. -/
def exSubjectAB : GoVal :=
  .vstruct (.cons "A" "a" false true (.vint 1)
    (.cons "B" "b" false true (.vstr "x") .nil))

/-- A subject with an embedded struct field: `struct { Inner }` where
`Inner` is `struct { X int }` with `X = 0`. -/
def exSubjectEmbedded : GoVal :=
  .vstruct (.cons "Inner" "" true true
    (.vstruct (.cons "X" "" false true (.vint 0) .nil)) .nil)

/-- A validator that reports whether it was invoked with the nil
interface or with a present value. -/
def probeRule (name : String) : RuleValidator :=
  ⟨name,
    fun v => .ok (some ⟨(match v with | .vnil => "nil" | _ => "present"), name⟩),
    false⟩

/-- The slice-aliasing scenario: `r0 := New(...)`. -/
def exChain0 : SliceStore × SRules := sNew []

/-- `base := r0.Field(f, v1, v2, v3)`: three single appends grow the
capacity 0 → 1 → 2 → 4, leaving one spare slot. -/
def exChainBase : SliceStore × SRules :=
  SRules.Field exChain0.1 exChain0.2 [1, 2, 3]

/-- First fork: `d := base.Field(f, v4)` (writes into the spare slot). -/
def exChainD : SliceStore × SRules :=
  SRules.Field exChainBase.1 exChainBase.2 [4]

/-- Second fork: `e := base.Field(f, v5)` (overwrites the same slot). -/
def exChainE : SliceStore × SRules :=
  SRules.Field exChainD.1 exChainBase.2 [5]

/-! ## Theorems -/

/-- **C9** (code bug): for a collection holding one violation, the
error-unwrapping view returned by the code is `[nil, the violation]` - a
list of length 2 whose first element is the nil error - instead of
exactly the one violation: `make([]error, len(v))` already creates
`len(v)` nil elements and the loop appends after them. -/
theorem unwrap_prepends_nil_errors :
    Errors.Unwrap [(⟨"m", "f"⟩ : VErr)] = [none, some ⟨"m", "f"⟩] ∧
    Errors.Unwrap [(⟨"m", "f"⟩ : VErr)] ≠ [some ⟨"m", "f"⟩] ∧
    (Errors.Unwrap [(⟨"m", "f"⟩ : VErr)]).length = 2 := by
  refine ⟨rfl, by decide, rfl⟩

/-- **C6**: the `RequiredValidator` of validators.go (the revision whose
length check covers maps) reports a violation exactly when the value is
absent (invalid), is its type's zero representation, is a pointer whose
referenced value is zero, or is an array-, slice- or map-kind value of
length zero; in particular a present-but-empty map counts as zero. -/
theorem required_violates_iff_zero :
    (∀ (c : RequiredFieldValidator) (v : GoVal),
      (c.Validate v).isSome =
        (!goIsValid v || goIsZero v || (goIsPtrKind v && goElemIsZero v) ||
          (goIsArrSliceMapKind v && goLen v == 0))) ∧
    (RequiredFieldValidator.Validate ⟨["m"], ""⟩ (.vmap .nil)).isSome = true := by
  constructor
  · intro c v
    simp only [RequiredFieldValidator.Validate]
    cases h1 : goIsValid v <;>
      cases h2 : goIsZero v <;>
        cases h3 : goIsPtrKind v && goElemIsZero v <;>
          cases h4 : goIsArrSliceMapKind v && goLen v == 0 <;>
            simp [h1, h2, h3, h4]
  · rfl

/-- **C2 counterexample**: two chains forked from the same partially built
rule set are *not* independent.  `base` holds validators 1,2,3 in a
backing array of capacity 4; fork `d` appends validator 4 into the spare
slot, fork `e` then appends validator 5 into the *same* slot, after which
`d`'s validator list reads 1,2,3,5 - `e`'s extension changed `d`'s list
(the receiver `base` itself is unchanged). -/
theorem rules_fork_interference :
    sliceView exChainD.1 exChainD.2.validators = [1, 2, 3, 4] ∧
    sliceView exChainE.1 exChainD.2.validators = [1, 2, 3, 5] ∧
    sliceView exChainE.1 exChainBase.2.validators = [1, 2, 3] := by
  refine ⟨by decide, by decide, by decide⟩

theorem take_set_of_le (l : List VId) (i : Nat) (v : VId) (n : Nat)
    (h : n ≤ i) : (l.set i v).take n = l.take n := by
  induction l generalizing i n with
  | nil => simp
  | cons a l ih =>
      cases i with
      | zero =>
          have : n = 0 := Nat.le_zero.mp h
          simp [this]
      | succ i =>
          cases n with
          | zero => simp
          | succ n =>
              simp only [List.set, List.take_succ_cons, List.cons.injEq,
                true_and]
              exact ih i n (Nat.le_of_succ_le_succ h)

theorem take_succ_set (l : List VId) (i : Nat) (v : VId) (h : i < l.length) :
    (l.set i v).take (i + 1) = l.take i ++ [v] := by
  induction l generalizing i with
  | nil => simp at h
  | cons a l ih =>
      cases i with
      | zero => simp
      | succ i =>
          simp only [List.set, List.take_succ_cons, List.cons_append,
            List.cons.injEq, true_and]
          exact ih i (by simpa using h)

theorem store_getD_set_self (st : SliceStore) (a : Nat) (x : List VId)
    (h : a < st.length) : (st.set a x).getD a [] = x := by
  simp [List.getD, List.getElem?_set_self h]

theorem store_getD_set_ne (st : SliceStore) (a b : Nat) (x : List VId)
    (h : b ≠ a) : (st.set a x).getD b [] = st.getD b [] := by
  simp [List.getD, List.getElem?_set_ne (fun e => h e.symm)]

theorem store_getD_append_lt (st : SliceStore) (x : List VId) (b : Nat)
    (h : b < st.length) : (st ++ [x]).getD b [] = st.getD b [] := by
  simp [List.getD, List.getElem?_append_left h]

theorem store_getD_append_self (st : SliceStore) (x : List VId) :
    (st ++ [x]).getD st.length [] = x := by
  simp [List.getD]

/-- One single-element append: the result's view extends the input's view
by the element, well-formedness is preserved, the store only grows, and
every slice header over the old store whose view does not overlap the
written slot (a different array, or a length at most the appended slice's
length) keeps its view. -/
theorem sliceAppend1_spec (st : SliceStore) (s : GoSlice) (v : VId)
    (h : SliceWF st s) :
    sliceView (sliceAppend1 st s v).1 (sliceAppend1 st s v).2 =
        sliceView st s ++ [v] ∧
    SliceWF (sliceAppend1 st s v).1 (sliceAppend1 st s v).2 ∧
    st.length ≤ (sliceAppend1 st s v).1.length ∧
    s.len ≤ (sliceAppend1 st s v).2.len ∧
    ((sliceAppend1 st s v).2.arr = s.arr ∨
      (sliceAppend1 st s v).2.arr ≥ st.length) ∧
    (∀ t : GoSlice, t.arr < st.length → (t.arr = s.arr → t.len ≤ s.len) →
      sliceView (sliceAppend1 st s v).1 t = sliceView st t) := by
  obtain ⟨hlc, harr, hcl⟩ := h
  by_cases hc : s.len < s.cap
  · -- in-place write at index s.len
    have harrlen : s.len < (st.getD s.arr []).length :=
      Nat.lt_of_lt_of_le hc hcl
    rw [sliceAppend1, if_pos hc]
    have hget : (st.set s.arr ((st.getD s.arr []).set s.len v)).getD s.arr []
        = (st.getD s.arr []).set s.len v :=
      store_getD_set_self st s.arr _ harr
    refine ⟨?_, ⟨hc, ?_, ?_⟩, ?_, Nat.le_succ _, Or.inl rfl, ?_⟩
    · show ((st.set s.arr ((st.getD s.arr []).set s.len v)).getD s.arr
          []).take (s.len + 1) = (st.getD s.arr []).take s.len ++ [v]
      rw [hget]
      exact take_succ_set _ _ _ harrlen
    · show s.arr < (st.set s.arr _).length
      rw [List.length_set]
      exact harr
    · show s.cap ≤ ((st.set s.arr _).getD s.arr []).length
      rw [hget, List.length_set]
      exact hcl
    · show st.length ≤ (st.set s.arr _).length
      rw [List.length_set]
    · intro t ht hts
      by_cases he : t.arr = s.arr
      · show ((st.set s.arr ((st.getD s.arr []).set s.len v)).getD t.arr
            []).take t.len = (st.getD t.arr []).take t.len
        rw [he, hget]
        exact take_set_of_le _ _ _ _ (hts he)
      · show ((st.set s.arr _).getD t.arr []).take t.len
            = (st.getD t.arr []).take t.len
        rw [store_getD_set_ne st s.arr t.arr _ he]
  · -- growth: fresh array appended at the end of the store
    rw [sliceAppend1, if_neg hc]
    have hview : (sliceView st s).length = s.len := by
      rw [sliceView, List.length_take]
      exact Nat.min_eq_left (Nat.le_trans hlc hcl)
    have hgrow : s.len + 1 ≤ growCap s.cap (s.len + 1) := by
      rw [growCap]
      by_cases hg : 2 * s.cap < s.len + 1
      · rw [if_pos hg]
      · rw [if_neg hg]
        omega
    have hsplit : sliceView st s ++ v :: List.replicate
        (growCap s.cap (s.len + 1) - (s.len + 1)) 0
        = (sliceView st s ++ [v]) ++ List.replicate
            (growCap s.cap (s.len + 1) - (s.len + 1)) 0 := by
      simp
    refine ⟨?_, ⟨hgrow, ?_, ?_⟩, ?_, Nat.le_succ _, Or.inr (Nat.le_refl _), ?_⟩
    · show ((st ++ [_]).getD st.length []).take (s.len + 1) = _
      rw [store_getD_append_self, hsplit]
      refine List.take_left' ?_
      rw [List.length_append, hview, List.length_cons, List.length_nil]
    · show st.length < (st ++ [_]).length
      simp
    · show growCap s.cap (s.len + 1) ≤ ((st ++ [_]).getD st.length []).length
      rw [store_getD_append_self, hsplit, List.length_append,
        List.length_append, hview, List.length_cons, List.length_nil,
        List.length_replicate]
      omega
    · show st.length ≤ (st ++ [_]).length
      simp
    · intro t ht _
      show ((st ++ [_]).getD t.arr []).take t.len
          = (st.getD t.arr []).take t.len
      rw [store_getD_append_lt st _ t.arr ht]

/-- `Rules.Field`'s append loop: the chain returned by `Field` sees the old
view extended by the new validators, the receiver's own slice is
untouched, and any slice over the old store not overlapping the appended
region keeps its view. -/
theorem sField_spec (vs : List VId) :
    ∀ (st : SliceStore) (r : SRules), SliceWF st r.validators →
    SliceWF (SRules.Field st r vs).1 (SRules.Field st r vs).2.validators ∧
    sliceView (SRules.Field st r vs).1 (SRules.Field st r vs).2.validators
      = sliceView st r.validators ++ vs ∧
    st.length ≤ (SRules.Field st r vs).1.length ∧
    r.validators.len ≤ (SRules.Field st r vs).2.validators.len ∧
    ((SRules.Field st r vs).2.validators.arr = r.validators.arr ∨
      (SRules.Field st r vs).2.validators.arr ≥ st.length) ∧
    (∀ t : GoSlice, t.arr < st.length →
      (t.arr = r.validators.arr → t.len ≤ r.validators.len) →
      sliceView (SRules.Field st r vs).1 t = sliceView st t) := by
  induction vs with
  | nil =>
      intro st r h
      refine ⟨h, ?_, Nat.le_refl _, Nat.le_refl _, Or.inl rfl,
        fun t _ _ => rfl⟩
      rw [List.append_nil]
      exact rfl
  | cons v vs ih =>
      intro st r h
      have hq := sliceAppend1_spec st r.validators v h
      obtain ⟨hqview, hqwf, hqst, hqlen, hqarr, hqpres⟩ := hq
      have key : SRules.Field st r (v :: vs)
          = SRules.Field (sliceAppend1 st r.validators v).1
              ⟨(sliceAppend1 st r.validators v).2⟩ vs := rfl
      rw [key]
      have ih' := ih (sliceAppend1 st r.validators v).1
        ⟨(sliceAppend1 st r.validators v).2⟩ hqwf
      obtain ⟨iwf, iview, ist, ilen, iarr, ipres⟩ := ih'
      refine ⟨iwf, ?_, Nat.le_trans hqst ist, ?_, ?_, ?_⟩
      · rw [iview, hqview, List.append_assoc]
        rfl
      · exact Nat.le_trans (Nat.le_trans hqlen (Nat.le_refl _)) ilen
      · rcases iarr with h1 | h1
        · rw [h1]
          rcases hqarr with h2 | h2
          · exact Or.inl h2
          · exact Or.inr h2
        · exact Or.inr (Nat.le_trans hqst h1)
      · intro t ht hts
        have ht' : t.arr < (sliceAppend1 st r.validators v).1.length :=
          Nat.lt_of_lt_of_le ht hqst
        have hts' : t.arr = (sliceAppend1 st r.validators v).2.arr →
            t.len ≤ (sliceAppend1 st r.validators v).2.len := by
          intro he
          rcases hqarr with h2 | h2
          · exact Nat.le_trans (hts (he.trans h2)) hqlen
          · exact absurd (Nat.lt_of_lt_of_le ht (he ▸ h2)) (Nat.lt_irrefl _)
        rw [ipres t ht' hts', hqpres t ht hts]

theorem writeAll_length (vs : List VId) :
    ∀ (a : List VId) (i : Nat), (writeAll a i vs).length = a.length := by
  induction vs with
  | nil => intro a i; rfl
  | cons v vs ih =>
      intro a i
      rw [writeAll, ih, List.length_set]

theorem take_writeAll_of_le (vs : List VId) :
    ∀ (a : List VId) (i n : Nat), n ≤ i →
      (writeAll a i vs).take n = a.take n := by
  induction vs with
  | nil => intro a i n _; rfl
  | cons v vs ih =>
      intro a i n h
      rw [writeAll, ih _ _ _ (Nat.le_succ_of_le h), take_set_of_le _ _ _ _ h]

theorem writeAll_take (vs : List VId) :
    ∀ (a : List VId) (i : Nat), i + vs.length ≤ a.length →
      (writeAll a i vs).take (i + vs.length) = a.take i ++ vs := by
  induction vs with
  | nil =>
      intro a i _
      rw [List.append_nil]
      exact rfl
  | cons v vs ih =>
      intro a i h
      have hi : i < a.length := by
        have := h
        simp only [List.length_cons] at this
        omega
      have harr : i + 1 + vs.length ≤ (a.set i v).length := by
        rw [List.length_set]
        simp only [List.length_cons] at h
        omega
      have hres := ih (a.set i v) (i + 1) harr
      rw [writeAll]
      have hn : i + (v :: vs).length = i + 1 + vs.length := by
        simp only [List.length_cons]
        omega
      rw [hn, hres, take_succ_set _ _ _ hi, List.append_assoc]
      rfl

/-- `append(s, vs...)` as in `Rules.Struct`: same contract as
`sliceAppend1_spec` for a batch. -/
theorem sliceAppendMany_spec (st : SliceStore) (s : GoSlice) (vs : List VId)
    (h : SliceWF st s) :
    sliceView (sliceAppendMany st s vs).1 (sliceAppendMany st s vs).2 =
        sliceView st s ++ vs ∧
    SliceWF (sliceAppendMany st s vs).1 (sliceAppendMany st s vs).2 ∧
    (∀ t : GoSlice, t.arr < st.length → (t.arr = s.arr → t.len ≤ s.len) →
      sliceView (sliceAppendMany st s vs).1 t = sliceView st t) := by
  obtain ⟨hlc, harr, hcl⟩ := h
  by_cases hc : s.len + vs.length ≤ s.cap
  · -- in-place batch write starting at index s.len
    have harrlen : s.len + vs.length ≤ (st.getD s.arr []).length :=
      Nat.le_trans hc hcl
    rw [sliceAppendMany, if_pos hc]
    have hget : (st.set s.arr (writeAll (st.getD s.arr []) s.len vs)).getD
        s.arr [] = writeAll (st.getD s.arr []) s.len vs :=
      store_getD_set_self st s.arr _ harr
    refine ⟨?_, ⟨hc, ?_, ?_⟩, ?_⟩
    · show ((st.set s.arr _).getD s.arr []).take (s.len + vs.length) = _
      rw [hget]
      exact writeAll_take vs _ s.len harrlen
    · show s.arr < (st.set s.arr _).length
      rw [List.length_set]
      exact harr
    · show s.cap ≤ ((st.set s.arr _).getD s.arr []).length
      rw [hget, writeAll_length]
      exact hcl
    · intro t ht hts
      by_cases he : t.arr = s.arr
      · show ((st.set s.arr _).getD t.arr []).take t.len
            = (st.getD t.arr []).take t.len
        rw [he, hget]
        exact take_writeAll_of_le vs _ _ _ (hts he)
      · show ((st.set s.arr _).getD t.arr []).take t.len
            = (st.getD t.arr []).take t.len
        rw [store_getD_set_ne st s.arr t.arr _ he]
  · -- growth
    rw [sliceAppendMany, if_neg hc]
    have hview : (sliceView st s).length = s.len := by
      rw [sliceView, List.length_take]
      exact Nat.min_eq_left (Nat.le_trans hlc hcl)
    have hgrow : s.len + vs.length ≤ growCap s.cap (s.len + vs.length) := by
      rw [growCap]
      by_cases hg : 2 * s.cap < s.len + vs.length
      · rw [if_pos hg]
      · rw [if_neg hg]
        omega
    refine ⟨?_, ⟨hgrow, ?_, ?_⟩, ?_⟩
    · show ((st ++ [_]).getD st.length []).take (s.len + vs.length) = _
      rw [store_getD_append_self]
      refine List.take_left' ?_
      rw [List.length_append, hview]
    · show st.length < (st ++ [_]).length
      simp
    · show growCap s.cap (s.len + vs.length) ≤
          ((st ++ [_]).getD st.length []).length
      rw [store_getD_append_self, List.length_append, List.length_append,
        hview, List.length_replicate]
      omega
    · intro t ht _
      show ((st ++ [_]).getD t.arr []).take t.len
          = (st.getD t.arr []).take t.len
      rw [store_getD_append_lt st _ t.arr ht]

/-- **C2 (amended)**: `Field` and `Struct` never change the validator list
the receiver itself exposes - the returned chain's list is the receiver's
list extended by the new validators while the receiver's own view is
untouched.  But fork independence does not hold in general: two chains
forked from the same rule set may share spare backing-array capacity, in
which case extending both makes the second extension overwrite the
first's appended validator (see the counterexample). -/
theorem rules_registration_preserves_receiver :
    (∀ (st : SliceStore) (r : SRules) (vs : List VId),
      SliceWF st r.validators →
      sliceView (SRules.Field st r vs).1 r.validators
          = sliceView st r.validators ∧
      sliceView (SRules.Field st r vs).1 (SRules.Field st r vs).2.validators
          = sliceView st r.validators ++ vs) ∧
    (∀ (st : SliceStore) (r : SRules) (vs : List VId),
      SliceWF st r.validators →
      sliceView (SRules.Struct st r vs).1 r.validators
          = sliceView st r.validators ∧
      sliceView (SRules.Struct st r vs).1 (SRules.Struct st r vs).2.validators
          = sliceView st r.validators ++ vs) := by
  constructor
  · intro st r vs h
    have hs := sField_spec vs st r h
    exact ⟨hs.2.2.2.2.2 r.validators h.2.1 (fun _ => Nat.le_refl _), hs.2.1⟩
  · intro st r vs h
    have hs := sliceAppendMany_spec st r.validators vs h
    exact ⟨hs.2.2 r.validators h.2.1 (fun _ => Nat.le_refl _), hs.1⟩

/-- Witness for C2's amended theorem at the concrete fork scenario. -/
theorem rules_registration_preserves_receiver_witness :
    sliceView exChainD.1 exChainBase.2.validators = [1, 2, 3] ∧
    sliceView exChainD.1 exChainD.2.validators = [1, 2, 3, 4] := by
  have h := rules_registration_preserves_receiver.1 exChainBase.1
    exChainBase.2 [4] (by refine ⟨by decide, by decide, by decide⟩)
  refine ⟨?_, ?_⟩
  · rw [show (sliceView exChainBase.1 exChainBase.2.validators)
      = [1, 2, 3] from by decide] at h
    exact h.1
  · rw [show (sliceView exChainBase.1 exChainBase.2.validators)
      = [1, 2, 3] from by decide] at h
    exact h.2

theorem except_bind_ok {α β : Type} (a : α) (f : α → Except String β) :
    (do let x ← Except.ok a; f x) = f a := rfl

theorem except_bind_error {α β : Type} (e : String)
    (f : α → Except String β) :
    (do let x ← (Except.error e : Except String α); f x) = Except.error e :=
  rfl

/-- The accumulator form of the validator loop against the declarative
outcome list: the collected errors are the outcomes appended after the
accumulator. -/
theorem runValidators_eq (subject : GoVal) (vm : GoEntries) :
    ∀ (vs : List RuleValidator) (acc : List VErr),
      runValidators subject vm vs acc
        = Except.map (fun os => acc ++ os) (outcomesList subject vm vs) := by
  intro vs
  induction vs with
  | nil =>
      intro acc
      show Except.ok acc = _
      rw [outcomesList]
      show _ = Except.ok (acc ++ [])
      rw [List.append_nil]
  | cons v vs ih =>
      intro acc
      rw [runValidators, outcomesList]
      cases h : validatorOutcome subject vm v with
      | error e => rw [except_bind_error, except_bind_error]; rfl
      | ok o =>
          rw [except_bind_ok, except_bind_ok, ih]
          cases h2 : outcomesList subject vm vs with
          | error e => rfl
          | ok os =>
              rw [except_bind_ok]
              show Except.ok _ = Except.ok _
              cases o with
              | none => simp
              | some e2 => simp [List.append_assoc]

/-- `Rules.Validate` against its declarative outcome collection. -/
theorem validate_eq_outcomes (r : Rules) (s : GoVal) :
    r.Validate s = (do
      let vm ← structToMap s
      let errs ← outcomesList s vm r.validators
      Except.ok (if errs = [] then (none : Option (List VErr))
        else some errs)) := by
  rw [Rules.Validate]
  cases hm : structToMap s with
  | error e => rw [except_bind_error, except_bind_error]
  | ok vm =>
      rw [except_bind_ok, except_bind_ok, runValidators_eq]
      cases ho : outcomesList s vm r.validators with
      | error e => rfl
      | ok errs =>
          cases errs with
          | nil => rfl
          | cons e es =>
              show (do
                let errs ← (Except.ok ([] ++ e :: es) : Except String (List VErr))
                Except.ok (if errs.length > 0 then some errs
                  else (none : Option (List VErr)))) = _
              rw [except_bind_ok]
              simp only [List.nil_append]
              rw [except_bind_ok]
              simp

/-- **C4**: for every rule set and subject, `Validate` collects exactly
the non-absent outcome of each bound validator, in registration order
(`outcomesList` walks the validators in order and keeps the non-nil
results), and returns that ordered sequence when it is non-empty,
otherwise the nil error - never an empty-but-present collection. -/
theorem validate_collects_ordered_violations :
    (∀ (r : Rules) (s : GoVal),
      r.Validate s = (do
        let vm ← structToMap s
        let errs ← outcomesList s vm r.validators
        Except.ok (if errs = [] then (none : Option (List VErr))
          else some errs))) ∧
    (∀ (r : Rules) (s : GoVal) (l : List VErr),
      r.Validate s = .ok (some l) → l ≠ []) := by
  refine ⟨validate_eq_outcomes, ?_⟩
  intro r s l h
  rw [validate_eq_outcomes] at h
  cases hm : structToMap s with
  | error e => rw [hm, except_bind_error] at h; exact absurd h (by simp)
  | ok vm =>
      rw [hm, except_bind_ok] at h
      cases ho : outcomesList s vm r.validators with
      | error e => rw [ho, except_bind_error] at h; exact absurd h (by simp)
      | ok errs =>
          rw [ho, except_bind_ok] at h
          cases herrs : errs with
          | nil =>
              rw [herrs] at h
              simp at h
          | cons e es =>
              rw [herrs] at h
              simp only [if_neg (List.cons_ne_nil e es), Except.ok.injEq,
                Option.some.injEq] at h
              rw [← h]
              exact List.cons_ne_nil e es

/-- Witness for C4 at a concrete rule set and subject. -/
theorem validate_collects_ordered_violations_witness :
    Rules.Validate ⟨[requiredRule "nope" ""]⟩ exSubjectAB
      = .ok (some [⟨"Please enter the nope", "nope"⟩]) ∧
    ([⟨"Please enter the nope", "nope"⟩] : List VErr) ≠ [] :=
  ⟨rfl, validate_collects_ordered_violations.2 ⟨[requiredRule "nope" ""]⟩
    exSubjectAB _ rfl⟩

/-- A walk that descends at every segment returns the incoming (nil)
error unchanged, for any validator. -/
theorem walk_all_maps (path : List String) :
    ∀ (es : GoEntries), allMapSteps es path = true →
      ∀ (f : GoVal → Except String (Option VErr)) (err0 : Option VErr),
        walkGo f es path err0 = .ok err0 := by
  induction path with
  | nil => intro es _ f err0; rfl
  | cons p ps ih =>
      intro es h f err0
      rw [allMapSteps] at h
      rw [walkGo]
      cases hl : es.lookup p with
      | none => rw [hl] at h; exact absurd h (by simp)
      | some v =>
          rw [hl] at h
          cases v with
          | vmap es2 => exact ih es2 h f err0
          | vmapNil => exact ih GoEntries.nil h f err0
          | vnil => exact absurd h (by simp)
          | vbool b => exact absurd h (by simp)
          | vint n => exact absurd h (by simp)
          | vfloat q => exact absurd h (by simp)
          | vstr s => exact absurd h (by simp)
          | vptrNil => exact absurd h (by simp)
          | vptr v => exact absurd h (by simp)
          | vsliceNil => exact absurd h (by simp)
          | vslice es2 => exact absurd h (by simp)
          | varr es2 => exact absurd h (by simp)
          | vstruct fs => exact absurd h (by simp)

/-- Removing a validator whose outcome is the nil error does not change
the outcome collection. -/
theorem outcomes_drop_middle (s : GoVal) (vm : GoEntries)
    (v : RuleValidator) (hv : validatorOutcome s vm v = .ok none) :
    ∀ (pre post : List RuleValidator),
      outcomesList s vm (pre ++ v :: post) = outcomesList s vm (pre ++ post) := by
  intro pre
  induction pre with
  | nil =>
      intro post
      show outcomesList s vm (v :: ([] ++ post)) = outcomesList s vm ([] ++ post)
      rw [List.nil_append, outcomesList, hv, except_bind_ok]
      cases hp : outcomesList s vm post with
      | error e => rfl
      | ok os => rfl
  | cons w pre ih =>
      intro post
      show outcomesList s vm (w :: (pre ++ v :: post))
          = outcomesList s vm (w :: (pre ++ post))
      rw [outcomesList, outcomesList]
      cases hw : validatorOutcome s vm w with
      | error e => rfl
      | ok o => rw [except_bind_ok, except_bind_ok, ih post]

/-- **C10**: when a bound field validator's path walk descends into a
nested mapping at every segment including the final one, the validator is
never invoked (the walk's result is the nil error for *every* validator
function), and removing such a validator from the chain leaves
`Validate`'s result unchanged - it contributes no violation. -/
theorem walk_all_maps_never_invokes :
    (∀ (es : GoEntries) (path : List String)
        (f : GoVal → Except String (Option VErr)),
      allMapSteps es path = true → walkGo f es path none = .ok none) ∧
    (∀ (pre post : List RuleValidator) (v : RuleValidator) (s : GoVal)
        (vm : GoEntries),
      structToMap s = .ok vm → v.name ≠ "" →
      allMapSteps vm (goSplit '.' v.name) = true →
      Rules.Validate ⟨pre ++ v :: post⟩ s = Rules.Validate ⟨pre ++ post⟩ s) := by
  constructor
  · intro es path f h
    exact walk_all_maps path es h f none
  · intro pre post v s vm hm hname hsteps
    rw [validate_eq_outcomes, validate_eq_outcomes, hm, except_bind_ok,
      except_bind_ok]
    have hv : validatorOutcome s vm v = .ok none := by
      rw [validatorOutcome, if_neg hname]
      exact walk_all_maps _ vm hsteps v.run none
    rw [outcomes_drop_middle s vm v hv pre post]

/-- Witness for C10: a Required validator bound to the embedded record's
own name is never invoked and yields no violation. -/
theorem walk_all_maps_never_invokes_witness :
    Rules.Validate ⟨[requiredRule "Inner" ""]⟩ exSubjectEmbedded
      = .ok none := by
  have h := walk_all_maps_never_invokes.2 [] [] (requiredRule "Inner" "")
    exSubjectEmbedded
    (.cons "Inner" (.vmap (.cons "X" (.vint 0) .nil)) .nil)
    rfl (by decide) rfl
  exact h.trans rfl

theorem except_bind_pure {α : Type} (x : Except String α) :
    (do let a ← x; Except.ok a) = x := by
  cases x <;> rfl

/-- **C5 counterexample**: with subject `{A int `json:"a"` = 1; B string
`json:"b"` = "x"}` and a Required validator bound to name "a.b", the walk
mismatches at segment "a" (an int, not a map) yet `Validate` reports *no*
violation - the claim predicts the validator is invoked with the nil
value, which would make Required fire.  The probe validator shows the
final invocation received the *present* value looked up at segment "b",
not nil. -/
theorem walk_mismatch_invokes_with_present_value :
    structToMap exSubjectAB
      = .ok (.cons "b" (.vstr "x") (.cons "a" (.vint 1) .nil)) ∧
    Rules.Validate ⟨[requiredRule "a.b" ""]⟩ exSubjectAB = .ok none ∧
    walkGo (probeRule "a.b").run
        (.cons "b" (.vstr "x") (.cons "a" (.vint 1) .nil))
        (goSplit '.' "a.b") none
      = .ok (some ⟨"present", "a.b"⟩) :=
  ⟨rfl, rfl, rfl⟩

/-- **C5 (amended)**: when every segment of the walk looks up as *absent*,
the validator is invoked with the nil value rather than skipped (the
walk's result is exactly `f nil`), and the Required validator reports a
violation on the nil value - so a Required validator bound to a name
whose every segment is missing from the mapping reports a violation.
(When a mismatched non-final segment is followed by a segment whose key
*is* present at the same level, the validator is instead last invoked
with that present value - see the counterexample.) -/
theorem walk_absent_invokes_with_nil :
    (∀ (es : GoEntries) (path : List String)
        (f : GoVal → Except String (Option VErr)),
      path ≠ [] → (∀ p ∈ path, es.lookup p = none) →
      ∀ err0, walkGo f es path err0 = f GoVal.vnil) ∧
    (∀ (c : RequiredValidator), (c.Validate GoVal.vnil).isSome = true) := by
  constructor
  · intro es path f
    induction path with
    | nil => intro h _ _; exact absurd rfl h
    | cons p ps ih =>
        intro _ habs err0
        have hp : es.lookup p = none := habs p (by simp)
        rw [walkGo, hp]
        cases ps with
        | nil =>
            show (do let e ← f GoVal.vnil; walkGo f es [] e) = f GoVal.vnil
            calc (do let e ← f GoVal.vnil; walkGo f es [] e)
                = (do let e ← f GoVal.vnil; Except.ok e) := rfl
              _ = f GoVal.vnil := except_bind_pure _
        | cons q qs =>
            cases hf : f GoVal.vnil with
            | error e => rw [except_bind_error]
            | ok a =>
                rw [except_bind_ok]
                have := ih (by simp)
                  (fun p' hp' => habs p' (List.mem_cons_of_mem _ hp')) a
                rw [this, hf]
  · intro c
    rfl

/-- Witness for C5's amended theorem at a concrete empty mapping. -/
theorem walk_absent_invokes_with_nil_witness :
    walkGo (requiredRule "nope" "").run GoEntries.nil ["nope"] none
      = (requiredRule "nope" "").run GoVal.vnil ∧
    ((RequiredValidator.mk "nope" "").Validate GoVal.vnil).isSome = true :=
  ⟨walk_absent_invokes_with_nil.1 GoEntries.nil ["nope"] _ (by simp)
      (fun p _ => rfl) none,
    walk_absent_invokes_with_nil.2 ⟨"nope", ""⟩⟩

theorem rmapLookup_rmapAdd_self (m : List (String × List RuleValidator))
    (k : String) (v : RuleValidator) :
    rmapLookup (rmapAdd m k v) k = some ((rmapLookup m k).getD [] ++ [v]) := by
  induction m with
  | nil => simp [rmapAdd, rmapLookup]
  | cons kv m ih =>
      obtain ⟨k', l⟩ := kv
      by_cases h : k' = k
      · rw [rmapAdd, if_pos h, rmapLookup, if_pos h, rmapLookup, if_pos h]
        rfl
      · rw [rmapAdd, if_neg h, rmapLookup, if_neg h, rmapLookup, if_neg h, ih]

theorem rmapLookup_rmapAdd_ne (m : List (String × List RuleValidator))
    (k k2 : String) (v : RuleValidator) (h : k2 ≠ k) :
    rmapLookup (rmapAdd m k v) k2 = rmapLookup m k2 := by
  have hne : ¬ k = k2 := fun e => h e.symm
  induction m with
  | nil =>
      simp [rmapAdd, rmapLookup, hne]
  | cons kv m ih =>
      obtain ⟨k', l⟩ := kv
      by_cases hk : k' = k
      · have hne2 : ¬ k' = k2 := by rw [hk]; exact hne
        rw [rmapAdd, if_pos hk, rmapLookup, if_neg hne2, rmapLookup,
          if_neg hne2]
      · rw [rmapAdd, if_neg hk, rmapLookup, rmapLookup, ih]

/-- The grouping loop of `Rules.MarshalJSON`, generalized over the
accumulated map: looking up a terminal name yields the accumulated group
followed by the exportable validators bearing that terminal name, in
registration order. -/
theorem buildRmap_lookup (vs : List RuleValidator) :
    ∀ (m : List (String × List RuleValidator)) (k : String),
      rmapLookup (buildRmap vs m) k =
        (match rmapLookup m k, vs.filter
            (fun v => v.exportable && (jsonFieldName v.name == k)) with
          | some l, g => some (l ++ g)
          | none, [] => none
          | none, g => some g) := by
  induction vs with
  | nil =>
      intro m k
      rw [buildRmap]
      cases h : rmapLookup m k with
      | none => simp
      | some l => simp
  | cons v vs ih =>
      intro m k
      rw [buildRmap]
      by_cases hexp : v.exportable
      · rw [if_pos hexp]
        by_cases hname : jsonFieldName v.name = k
        · rw [ih (rmapAdd m (jsonFieldName v.name) v) k, hname,
            rmapLookup_rmapAdd_self]
          have hfil : (v :: vs).filter
              (fun w => w.exportable && (jsonFieldName w.name == k))
              = v :: vs.filter
                  (fun w => w.exportable && (jsonFieldName w.name == k)) :=
            List.filter_cons_of_pos (by simp [hexp, hname])
          rw [hfil]
          cases h : rmapLookup m k with
          | none =>
              cases hg : vs.filter
                  (fun w => w.exportable && (jsonFieldName w.name == k)) with
              | nil => simp
              | cons w g => simp
          | some l =>
              cases hg : vs.filter
                  (fun w => w.exportable && (jsonFieldName w.name == k)) with
              | nil => simp
              | cons w g => simp
        · rw [ih (rmapAdd m (jsonFieldName v.name) v) k,
            rmapLookup_rmapAdd_ne m _ k v (fun e => hname e.symm)]
          have hfil : (v :: vs).filter
              (fun w => w.exportable && (jsonFieldName w.name == k))
              = vs.filter
                  (fun w => w.exportable && (jsonFieldName w.name == k)) :=
            List.filter_cons_of_neg (by simp [hname])
          rw [hfil]
      · rw [if_neg hexp]
        have hfil : (v :: vs).filter
            (fun w => w.exportable && (jsonFieldName w.name == k))
            = vs.filter
                (fun w => w.exportable && (jsonFieldName w.name == k)) :=
          List.filter_cons_of_neg (by simp [hexp])
        rw [ih m k, hfil]

/-- **C8**: the serialized description groups exactly the bound validators
whose exportability flag is true under the terminal export-name segment
of their assigned name, preserving registration order within each group
(a group is present exactly when non-empty); custom field-function and
record-function validators carry a false exportability flag; and the
MinLength descriptor omits the `message` field exactly when no override
message was set. -/
theorem marshal_groups_exportable_by_terminal_name :
    (∀ (r : Rules) (k : String),
      rmapLookup (Rules.MarshalJSON r) k =
        (match r.validators.filter
            (fun v => v.exportable && (jsonFieldName v.name == k)) with
          | [] => none
          | g => some g)) ∧
    (∀ c : MinLengthValidator,
      ("message" ∈ (c.MarshalJSON).map Prod.fst) ↔ c.message ≠ "") ∧
    (∀ f : FieldFuncValidator, f.HtmlCompatible = false) ∧
    (∀ f : StructFuncValidator, f.HtmlCompatible = false) := by
  refine ⟨?_, ?_, fun _ => rfl, fun _ => rfl⟩
  · intro r k
    rw [Rules.MarshalJSON, buildRmap_lookup]
    rw [show rmapLookup [] k = none from rfl]
    cases hg : r.validators.filter
        (fun v => v.exportable && (jsonFieldName v.name == k)) with
    | nil => rfl
    | cons w g => rfl
  · intro c
    by_cases h : c.message = "" <;>
      simp [MinLengthValidator.MarshalJSON, h]

theorem opt_bind_some {α β : Type} (a : α) (f : α → Option β) :
    (do let x ← some a; f x) = f a := rfl

theorem opt_bind_none {α β : Type} (f : α → Option β) :
    (do let x ← (none : Option α); f x) = none := rfl

mutual
theorem findType_extends : ∀ (ptr base : Nat) (t : GoType)
    (acc r : List SField), findStructField ptr base t acc = some r →
    r = acc ∨ acc.length < r.length
  | ptr, base, .leaf sz, acc, r, h => by
      rw [findStructField] at h
      exact absurd h (by simp)
  | ptr, base, .strct fs, acc, r, h => by
      rw [findStructField] at h
      exact findLoop_extends ptr base fs 0 acc r h

theorem findLoop_extends : ∀ (ptr base : Nat) (fs : GoFields) (off : Nat)
    (acc r : List SField), findStructFieldLoop ptr base fs off acc = some r →
    r = acc ∨ acc.length < r.length
  | ptr, base, .nil, off, acc, r, h => by
      rw [findStructFieldLoop] at h
      exact Or.inl (Option.some.inj h).symm
  | ptr, base, .cons name tag anonymous ty fs, off, acc, r, h => by
      rw [findStructFieldLoop] at h
      cases hres : findStructFieldLoop ptr base fs (off + goSize ty) acc with
      | none => rw [hres, opt_bind_none] at h; exact absurd h (by simp)
      | some res =>
          rw [hres, opt_bind_some] at h
          by_cases hlen : acc.length < res.length
          · rw [if_pos hlen] at h
            exact Or.inr (Option.some.inj h ▸ hlen)
          · rw [if_neg hlen] at h
            by_cases hptr : ptr = base + off
            · rw [if_pos hptr] at h
              by_cases hanon : anonymous
              · rw [if_pos hanon] at h
                rcases findType_extends ptr (base + off) ty
                    (acc ++ [⟨name, tag, anonymous⟩]) r h with h2 | h2
                · subst h2
                  refine Or.inr ?_
                  simp
                · refine Or.inr (Nat.lt_of_le_of_lt ?_ h2)
                  simp
              · rw [if_neg hanon] at h
                refine Or.inr ?_
                rw [← Option.some.inj h]
                simp
            · rw [if_neg hptr] at h
              by_cases hanon : anonymous
              · rw [if_pos hanon] at h
                cases htmp : findStructField ptr (base + off) ty
                    (acc ++ [⟨name, tag, anonymous⟩]) with
                | none => rw [htmp, opt_bind_none] at h; exact absurd h (by simp)
                | some tmp =>
                    rw [htmp, opt_bind_some] at h
                    by_cases hd : acc.length + 1 < tmp.length
                    · rw [if_pos hd] at h
                      refine Or.inr ?_
                      rw [← Option.some.inj h]
                      omega
                    · rw [if_neg hd] at h
                      exact Or.inl (Option.some.inj h).symm
              · rw [if_neg hanon] at h
                exact Or.inl (Option.some.inj h).symm
end

theorem wfFields_parts (name tag : String) (anonymous : Bool) (ty : GoType)
    (fs : GoFields)
    (h : wfFields (.cons name tag anonymous ty fs) = true) :
    (anonymous = true → ∃ gs, ty = .strct gs) ∧ wfType ty = true ∧
      wfFields fs = true := by
  unfold wfFields at h
  simp only [Bool.and_eq_true, Bool.or_eq_true, Bool.not_eq_true'] at h
  obtain ⟨⟨h1, h2⟩, h3⟩ := h
  refine ⟨?_, h2, h3⟩
  intro ha
  rcases h1 with h1 | h1
  · rw [ha] at h1; exact absurd h1 (by simp)
  · cases ty with
    | leaf sz => exact absurd h1 (by simp)
    | strct gs => exact ⟨gs, rfl⟩

theorem wf_size_pos : ∀ (t : GoType), wfType t = true → 0 < goSize t
  | .leaf sz, h => by
      rw [wfType] at h
      rw [goSize]
      exact of_decide_eq_true h
  | .strct .nil, h => by
      rw [wfType] at h
      exact absurd h (by simp)
  | .strct (.cons name tag anonymous ty fs), h => by
      rw [wfType] at h
      obtain ⟨_, hty, _⟩ := wfFields_parts name tag anonymous ty fs h
      have := wf_size_pos ty hty
      rw [goSize, goSizeF]
      omega

theorem nth_le_size : ∀ (fs : GoFields) (i : Nat) (f : SField) (ty : GoType),
    nthFieldT fs i = some (f, ty) →
    offsetAt fs i + goSize ty ≤ goSizeF fs
  | .nil, i, f, ty, h => by
      rw [nthFieldT] at h
      exact absurd h (by simp)
  | .cons name tag anonymous ty2 fs, 0, f, ty, h => by
      rw [nthFieldT] at h
      obtain ⟨hf, hty⟩ := Prod.mk.inj (Option.some.inj h)
      rw [offsetAt, goSizeF, hty]
      omega
  | .cons name tag anonymous ty2 fs, i + 1, f, ty, h => by
      rw [nthFieldT] at h
      have := nth_le_size fs i f ty h
      rw [offsetAt, goSizeF]
      omega

theorem nth_wf : ∀ (fs : GoFields) (i : Nat) (f : SField) (ty : GoType),
    wfFields fs = true → nthFieldT fs i = some (f, ty) →
    wfType ty = true ∧ (f.anonymous = true → ∃ gs, ty = .strct gs)
  | .nil, i, f, ty, _, h => by
      rw [nthFieldT] at h
      exact absurd h (by simp)
  | .cons name tag anonymous ty2 fs, 0, f, ty, hwf, h => by
      obtain ⟨h1, h2, h3⟩ := wfFields_parts name tag anonymous ty2 fs hwf
      rw [nthFieldT] at h
      obtain ⟨hf, hty⟩ := Prod.mk.inj (Option.some.inj h)
      subst hty
      refine ⟨h2, ?_⟩
      intro ha
      exact h1 (by rw [← hf] at ha; exact ha)
  | .cons name tag anonymous ty2 fs, i + 1, f, ty, hwf, h => by
      obtain ⟨h1, h2, h3⟩ := wfFields_parts name tag anonymous ty2 fs hwf
      rw [nthFieldT] at h
      exact nth_wf fs i f ty h3 h

/-- A scan over fields none of which can contain the target address falls
through, returning the accumulated results unchanged. -/
theorem findLoop_oor : ∀ (ptr base : Nat) (fs : GoFields) (off : Nat)
    (acc : List SField), wfFields fs = true →
    (ptr < base + off ∨ base + off + goSizeF fs ≤ ptr) →
    findStructFieldLoop ptr base fs off acc = some acc
  | ptr, base, .nil, off, acc, _, _ => by
      rw [findStructFieldLoop]
  | ptr, base, .cons name tag anonymous ty fs, off, acc, hwf, hrange => by
      obtain ⟨h1, h2, h3⟩ := wfFields_parts name tag anonymous ty fs hwf
      have hszty : 0 < goSize ty := wf_size_pos ty h2
      rw [goSizeF] at hrange
      rw [findStructFieldLoop]
      have htail : findStructFieldLoop ptr base fs (off + goSize ty) acc
          = some acc := by
        refine findLoop_oor ptr base fs (off + goSize ty) acc h3 ?_
        omega
      rw [htail, opt_bind_some, if_neg (by omega : ¬ acc.length < acc.length)]
      have hne : ¬ ptr = base + off := by omega
      rw [if_neg hne]
      by_cases hanon : anonymous = true
      · rw [if_pos hanon]
        cases ty with
        | leaf sz =>
            obtain ⟨gs, hgs⟩ := h1 hanon
            exact absurd hgs (by simp)
        | strct gs =>
            rw [findStructField]
            have hszgs : goSize (GoType.strct gs) = goSizeF gs := rfl
            have hinner : findStructFieldLoop ptr (base + off) gs 0
                (acc ++ [⟨name, tag, anonymous⟩]) = some
                (acc ++ [⟨name, tag, anonymous⟩]) := by
              refine findLoop_oor ptr (base + off) gs 0 _ ?_ ?_
              · cases gs with
                | nil => rw [wfFields]
                | cons n2 t2 a2 ty2 gs2 =>
                    rw [wfType] at h2
                    exact h2
              · rw [hszgs] at hszty hrange
                omega
            rw [hinner, opt_bind_some]
            rw [if_neg (by simp)]
      · rw [if_neg hanon]

/-- The scan of a field list when the target address lies inside the
extent of the field at index `i` (at inner offset `δ`): the suffix falls
through, and the loop's result is exactly the loop body's action at that
field. -/
theorem findLoop_at_field : ∀ (fs : GoFields) (i : Nat) (ptr base : Nat)
    (f : SField) (ty : GoType) (off0 dl : Nat) (acc : List SField),
    wfFields fs = true →
    nthFieldT fs i = some (f, ty) →
    dl < goSize ty →
    ptr = base + off0 + offsetAt fs i + dl →
    findStructFieldLoop ptr base fs off0 acc =
      (if dl = 0 then
        (if f.anonymous then
          findStructField ptr (base + off0 + offsetAt fs i) ty (acc ++ [f])
        else some (acc ++ [f]))
      else if f.anonymous then
        (match findStructField ptr (base + off0 + offsetAt fs i) ty
            (acc ++ [f]) with
          | none => none
          | some tmp =>
              if acc.length + 1 < tmp.length then some tmp else some acc)
      else some acc)
  | .nil, i, ptr, base, f, ty, off0, dl, acc, _, hnth, _, _ => by
      rw [nthFieldT] at hnth
      exact absurd hnth (by simp)
  | .cons name tag anonymous ty2 gs, 0, ptr, base, f, ty, off0, dl, acc,
      hwf, hnth, hdl, heq => by
      obtain ⟨h1, h2, h3⟩ := wfFields_parts name tag anonymous ty2 gs hwf
      rw [nthFieldT] at hnth
      obtain ⟨hf, hty⟩ := Prod.mk.inj (Option.some.inj hnth)
      subst hty
      subst hf
      rw [offsetAt] at heq ⊢
      rw [findStructFieldLoop]
      have htail : findStructFieldLoop ptr base gs (off0 + goSize ty2) acc
          = some acc := by
        refine findLoop_oor ptr base gs (off0 + goSize ty2) acc h3 (Or.inl ?_)
        omega
      rw [htail, opt_bind_some, if_neg (by omega : ¬ acc.length < acc.length)]
      by_cases hz : dl = 0
      · have hp : ptr = base + off0 := by omega
        rw [if_pos hp, if_pos hz]
        have harith : base + off0 + 0 = base + off0 := by omega
        rw [harith, ← hp]
      · have hp : ¬ ptr = base + off0 := by omega
        rw [if_neg hp, if_neg hz]
        have harith : base + off0 + 0 = base + off0 := by omega
        rw [harith]
        by_cases hanon : anonymous = true
        · rw [if_pos hanon]
          have hanon2 : (⟨name, tag, anonymous⟩ : SField).anonymous = true :=
            hanon
          rw [if_pos hanon2]
          cases htmp : findStructField ptr (base + off0) ty2
              (acc ++ [(⟨name, tag, anonymous⟩ : SField)]) with
          | none => rfl
          | some tmp => rfl
        · rw [if_neg hanon]
          have hanon2 : ¬ (⟨name, tag, anonymous⟩ : SField).anonymous = true :=
            hanon
          rw [if_neg hanon2]
  | .cons name tag anonymous ty2 gs, j + 1, ptr, base, f, ty, off0, dl, acc,
      hwf, hnth, hdl, heq => by
      obtain ⟨h1, h2, h3⟩ := wfFields_parts name tag anonymous ty2 gs hwf
      have hsz2 : 0 < goSize ty2 := wf_size_pos ty2 h2
      rw [nthFieldT] at hnth
      rw [offsetAt] at heq ⊢
      have heq' : ptr = base + (off0 + goSize ty2) + offsetAt gs j + dl := by
        omega
      have ih := findLoop_at_field gs j ptr base f ty (off0 + goSize ty2) dl
        acc h3 hnth hdl heq'
      have harith : base + (off0 + goSize ty2) + offsetAt gs j
          = base + off0 + (goSize ty2 + offsetAt gs j) := by omega
      rw [harith] at ih
      rw [findStructFieldLoop, ih]
      cases hv : (if dl = 0 then
          (if f.anonymous then
            findStructField ptr (base + off0 + (goSize ty2 + offsetAt gs j))
              ty (acc ++ [f])
          else some (acc ++ [f]))
        else if f.anonymous then
          (match findStructField ptr
              (base + off0 + (goSize ty2 + offsetAt gs j)) ty
              (acc ++ [f]) with
            | none => none
            | some tmp =>
                if acc.length + 1 < tmp.length then some tmp else some acc)
        else some acc) with
      | none => rw [opt_bind_none]
      | some R =>
          rw [opt_bind_some]
          have hdico : R = acc ∨ acc.length < R.length := by
            by_cases hz : dl = 0 <;> by_cases hanon : f.anonymous = true
            · rw [if_pos hz, if_pos hanon] at hv
              rcases findType_extends ptr _ ty (acc ++ [f]) R hv with h4 | h4
              · subst h4; right; simp
              · right
                refine Nat.lt_of_le_of_lt ?_ h4
                simp
            · rw [if_pos hz, if_neg hanon] at hv
              right
              rw [← Option.some.inj hv]
              simp
            · rw [if_neg hz, if_pos hanon] at hv
              cases htmp : findStructField ptr
                  (base + off0 + (goSize ty2 + offsetAt gs j)) ty
                  (acc ++ [f]) with
              | none =>
                  simp only [htmp] at hv
                  exact absurd hv (by simp)
              | some tmp =>
                  simp only [htmp] at hv
                  by_cases hd : acc.length + 1 < tmp.length
                  · rw [if_pos hd] at hv
                    right
                    rw [← Option.some.inj hv]
                    omega
                  · rw [if_neg hd] at hv
                    left
                    exact (Option.some.inj hv).symm
            · rw [if_neg hz, if_neg hanon] at hv
              left
              exact (Option.some.inj hv).symm
          rcases hdico with hR | hR
          · -- the inner scan fell through: the head field is examined and
            -- also falls through (the target is beyond its extent)
            rw [hR]
            rw [if_neg (by omega : ¬ acc.length < acc.length)]
            have hp : ¬ ptr = base + off0 := by omega
            rw [if_neg hp]
            by_cases hanon : anonymous = true
            · rw [if_pos hanon]
              cases ty2 with
              | leaf sz =>
                  obtain ⟨gs2, hgs2⟩ := h1 hanon
                  exact absurd hgs2 (by simp)
              | strct gs2 =>
                  rw [findStructField]
                  have hszeq : goSize (GoType.strct gs2) = goSizeF gs2 := rfl
                  have hinner : findStructFieldLoop ptr (base + off0) gs2 0
                      (acc ++ [⟨name, tag, anonymous⟩]) = some
                      (acc ++ [⟨name, tag, anonymous⟩]) := by
                    refine findLoop_oor ptr (base + off0) gs2 0 _ ?_ (Or.inr ?_)
                    · cases gs2 with
                      | nil => rw [wfFields]
                      | cons n3 t3 a3 ty3 gs3 =>
                          rw [wfType] at h2
                          exact h2
                    · rw [hszeq] at hsz2
                      omega
                  rw [hinner, opt_bind_some]
                  rw [if_neg (by simp)]
            · rw [if_neg hanon]
          · rw [if_pos hR]

theorem wf_strct_fields (fs : GoFields) (h : wfType (.strct fs) = true) :
    wfFields fs = true := by
  cases fs with
  | nil => rw [wfType] at h; exact absurd h (by simp)
  | cons name tag anonymous ty gs => rw [wfType] at h; exact h

theorem pathInfo_length : ∀ (t : GoType) (p : List Nat) (sfs : List SField)
    (off : Nat), pathInfo t p = some (sfs, off) → sfs.length = p.length
  | .leaf sz, p, sfs, off, h => by
      rw [pathInfo.eq_def] at h
      exact absurd h (by simp)
  | .strct fs, [], sfs, off, h => by
      rw [pathInfo.eq_def] at h
      exact absurd h (by simp)
  | .strct fs, [i], sfs, off, h => by
      rw [pathInfo] at h
      cases hn : nthFieldT fs i with
      | none => rw [hn] at h; exact absurd h (by simp)
      | some fty =>
          obtain ⟨f, ty⟩ := fty
          rw [hn] at h
          obtain ⟨hsfs, _⟩ := Prod.mk.inj (Option.some.inj h)
          rw [← hsfs]
          rfl
  | .strct fs, i :: j :: is, sfs, off, h => by
      rw [pathInfo] at h
      cases hn : nthFieldT fs i with
      | none => rw [hn] at h; exact absurd h (by simp)
      | some fty =>
          obtain ⟨f, ty⟩ := fty
          simp only [hn] at h
          by_cases hanon : f.anonymous = true
          · rw [if_pos hanon] at h
            cases hp : pathInfo ty (j :: is) with
            | none => rw [hp] at h; exact absurd h (by simp)
            | some go =>
                obtain ⟨gs, o⟩ := go
                simp only [hp] at h
                obtain ⟨hsfs, _⟩ := Prod.mk.inj (Option.some.inj h)
                rw [← hsfs]
                have := pathInfo_length ty (j :: is) gs o hp
                simp only [List.length_cons] at this ⊢
                omega
          · rw [if_neg hanon] at h
            exact absurd h (by simp)

theorem pathInfo_off_lt : ∀ (t : GoType) (p : List Nat) (sfs : List SField)
    (off : Nat), wfType t = true → pathInfo t p = some (sfs, off) →
    off < goSize t
  | .leaf sz, p, sfs, off, _, h => by
      rw [pathInfo.eq_def] at h
      exact absurd h (by simp)
  | .strct fs, [], sfs, off, _, h => by
      rw [pathInfo.eq_def] at h
      exact absurd h (by simp)
  | .strct fs, [i], sfs, off, hwf, h => by
      have hwff := wf_strct_fields fs hwf
      rw [pathInfo] at h
      cases hn : nthFieldT fs i with
      | none => rw [hn] at h; exact absurd h (by simp)
      | some fty =>
          obtain ⟨f, ty⟩ := fty
          rw [hn] at h
          obtain ⟨_, hoff⟩ := Prod.mk.inj (Option.some.inj h)
          obtain ⟨hty, _⟩ := nth_wf fs i f ty hwff hn
          have h1 := nth_le_size fs i f ty hn
          have h2 := wf_size_pos ty hty
          have h3 : goSize (GoType.strct fs) = goSizeF fs := rfl
          rw [h3, ← hoff]
          omega
  | .strct fs, i :: j :: is, sfs, off, hwf, h => by
      have hwff := wf_strct_fields fs hwf
      rw [pathInfo] at h
      cases hn : nthFieldT fs i with
      | none => rw [hn] at h; exact absurd h (by simp)
      | some fty =>
          obtain ⟨f, ty⟩ := fty
          simp only [hn] at h
          by_cases hanon : f.anonymous = true
          · rw [if_pos hanon] at h
            cases hp : pathInfo ty (j :: is) with
            | none => rw [hp] at h; exact absurd h (by simp)
            | some go =>
                obtain ⟨gs, o⟩ := go
                simp only [hp] at h
                obtain ⟨_, hoff⟩ := Prod.mk.inj (Option.some.inj h)
                obtain ⟨hty, _⟩ := nth_wf fs i f ty hwff hn
                have h1 := nth_le_size fs i f ty hn
                have h2 := pathInfo_off_lt ty (j :: is) gs o hty hp
                have h3 : goSize (GoType.strct fs) = goSizeF fs := rfl
                rw [h3, ← hoff]
                omega
          · rw [if_neg hanon] at h
            exact absurd h (by simp)

/-- The main resolution theorem: for a well-formed record type, the field
search at the address of a descent path whose final field is concrete
returns exactly the fields along that path, appended to the accumulated
results. -/
theorem resolve_path : ∀ (t : GoType) (p : List Nat) (sfs : List SField)
    (off : Nat), wfType t = true → pathInfo t p = some (sfs, off) →
    lastIsConcrete sfs = true →
    ∀ (base : Nat) (acc : List SField),
      findStructField (base + off) base t acc = some (acc ++ sfs)
  | .leaf sz, p, sfs, off, _, h, _ => by
      rw [pathInfo.eq_def] at h
      exact absurd h (by simp)
  | .strct fs, [], sfs, off, _, h, _ => by
      rw [pathInfo.eq_def] at h
      exact absurd h (by simp)
  | .strct fs, [i], sfs, off, hwf, h, hlast => by
      have hwff := wf_strct_fields fs hwf
      rw [pathInfo] at h
      intro base acc
      cases hn : nthFieldT fs i with
      | none => rw [hn] at h; exact absurd h (by simp)
      | some fty =>
          obtain ⟨f, ty⟩ := fty
          simp only [hn] at h
          obtain ⟨hsfs, hoff⟩ := Prod.mk.inj (Option.some.inj h)
          obtain ⟨hty, _⟩ := nth_wf fs i f ty hwff hn
          have hszty : 0 < goSize ty := wf_size_pos ty hty
          have hanon : f.anonymous = false := by
            rw [← hsfs] at hlast
            rw [lastIsConcrete] at hlast
            simp only [Bool.not_eq_true'] at hlast
            exact hlast
          rw [findStructField]
          have hcall := findLoop_at_field fs i (base + off) base f ty 0 0 acc
            hwff hn hszty (by omega)
          rw [hcall, if_pos rfl, if_neg (by rw [hanon]; simp), ← hsfs]
  | .strct fs, i :: j :: is, sfs, off, hwf, h, hlast => by
      have hwff := wf_strct_fields fs hwf
      rw [pathInfo] at h
      intro base acc
      cases hn : nthFieldT fs i with
      | none => rw [hn] at h; exact absurd h (by simp)
      | some fty =>
          obtain ⟨f, ty⟩ := fty
          simp only [hn] at h
          by_cases hanon : f.anonymous = true
          · rw [if_pos hanon] at h
            cases hp : pathInfo ty (j :: is) with
            | none => rw [hp] at h; exact absurd h (by simp)
            | some go =>
                obtain ⟨gs, o⟩ := go
                simp only [hp] at h
                obtain ⟨hsfs, hoff⟩ := Prod.mk.inj (Option.some.inj h)
                obtain ⟨hty, _⟩ := nth_wf fs i f ty hwff hn
                have hlast2 : lastIsConcrete gs = true := by
                  rw [← hsfs] at hlast
                  have hglen := pathInfo_length ty (j :: is) gs o hp
                  cases gs with
                  | nil => simp at hglen
                  | cons g1 gs1 => rw [lastIsConcrete] at hlast; exact hlast
                have hodlt : o < goSize ty := pathInfo_off_lt ty (j :: is)
                  gs o hty hp
                have ih := resolve_path ty (j :: is) gs o hty hp hlast2
                rw [findStructField]
                have hcall := findLoop_at_field fs i (base + off) base f ty 0 o
                  acc hwff hn hodlt (by omega)
                rw [hcall]
                have hglen := pathInfo_length ty (j :: is) gs o hp
                have hbase : base + 0 + offsetAt fs i + o = base + off := by
                  omega
                by_cases hz : o = 0
                · rw [if_pos hz, if_pos hanon]
                  have hthis := ih (base + 0 + offsetAt fs i) (acc ++ [f])
                  rw [hbase] at hthis
                  rw [hthis, ← hsfs]
                  simp
                · rw [if_neg hz, if_pos hanon]
                  have hthis := ih (base + 0 + offsetAt fs i) (acc ++ [f])
                  rw [hbase] at hthis
                  simp only [hthis]
                  have hlen : acc.length + 1 < (acc ++ [f] ++ gs).length := by
                    simp only [List.length_append, List.length_cons,
                      List.length_nil]
                    cases gs with
                    | nil => simp at hglen
                    | cons g1 gs1 => simp
                  rw [if_pos hlen, ← hsfs]
                  simp
          · rw [if_neg hanon] at h
            exact absurd h (by simp)

/-- **C1**: for every well-formed record type and every field reachable
through embedding (a descent path through anonymous struct fields whose
final field is concrete), `getFieldName` of the record reference and the
field's address returns the ordered outer-to-inner dotted path: one
segment per traversed level (so a top-level field gives one segment, one
embedding level two, two levels three), each segment being the field's
rename annotation (first comma token of its json tag) when present,
otherwise its declared name. -/
theorem getFieldName_resolves_embedded_path :
    ∀ (base : Nat) (t : GoType) (p : List Nat) (sfs : List SField)
      (off : Nat) (fty : GoType),
    wfType t = true → pathInfo t p = some (sfs, off) →
    lastIsConcrete sfs = true →
    getFieldName (.ref base t) (.ref (base + off) fty)
        = some (String.intercalate "." (sfs.map sfJsonName)) ∧
    sfs.length = p.length := by
  intro base t p sfs off fty hwf hp hlast
  refine ⟨?_, pathInfo_length t p sfs off hp⟩
  cases t with
  | leaf sz =>
      rw [pathInfo.eq_def] at hp
      exact absurd hp (by simp)
  | strct fs =>
      have hsfsne : sfs ≠ [] := by
        have hlen := pathInfo_length (.strct fs) p sfs off hp
        cases p with
        | nil =>
            rw [pathInfo.eq_def] at hp
            exact absurd hp (by simp)
        | cons i is =>
            intro he
            rw [he] at hlen
            simp at hlen
      have hfind := resolve_path (.strct fs) p sfs off hwf hp hlast base []
      rw [getFieldName, getFieldNameFound, hfind, opt_bind_some]
      rw [List.nil_append]
      rw [if_neg (by simpa using hsfsne)]

/-- Witness for C1 at the two-level embedded record `exOuter`, resolving
`&outer.Inner.Inner2.Deep` (path indices [1,0,0], offset 16). -/
theorem getFieldName_resolves_embedded_path_witness :
    getFieldName (.ref 100 exOuter) (.ref 116 (.leaf 8))
        = some "Inner.inner2.deep" ∧
    ([(⟨"Inner", "", true⟩ : SField), ⟨"Inner2", "inner2", true⟩,
        ⟨"Deep", "deep", false⟩].length = [1, 0, 0].length) := by
  have h := getFieldName_resolves_embedded_path 100 exOuter [1, 0, 0]
    [⟨"Inner", "", true⟩, ⟨"Inner2", "inner2", true⟩, ⟨"Deep", "deep", false⟩]
    16 (.leaf 8) (by decide) (by decide) (by decide)
  exact ⟨h.1.trans (by decide), h.2⟩

/-- When the target address is exactly the address of an anonymous
struct field, the search recurses into that field with its segment
appended. -/
theorem findStructField_at_anon (base : Nat) (fs : GoFields) (i : Nat)
    (f : SField) (gs : GoFields) (hwf : wfFields fs = true)
    (hnth : nthFieldT fs i = some (f, .strct gs))
    (hanon : f.anonymous = true) (hwfgs : wfType (.strct gs) = true) :
    findStructField (base + offsetAt fs i) base (.strct fs) []
      = findStructField (base + offsetAt fs i) (base + offsetAt fs i)
          (.strct gs) [f] := by
  have hsz : 0 < goSize (GoType.strct gs) := wf_size_pos _ hwfgs
  rw [findStructField]
  have hcall := findLoop_at_field fs i (base + offsetAt fs i) base f
    (.strct gs) 0 0 [] hwf hnth hsz (by omega)
  rw [hcall, if_pos rfl, if_pos hanon]
  have harith : base + 0 + offsetAt fs i = base + offsetAt fs i := by omega
  rw [harith]
  rw [List.nil_append]

/-- When the last declared field is an anonymous *empty* struct whose
address is the target, the recursive search finds nothing deeper and the
field's own segment is the returned match (the fallback). -/
theorem findLoop_last_empty : ∀ (fs : GoFields) (i : Nat)
    (name tag : String) (ptr base off0 : Nat) (acc : List SField),
    nthFieldT fs i = some (⟨name, tag, true⟩, .strct .nil) →
    nthFieldT fs (i + 1) = none →
    ptr = base + off0 + offsetAt fs i →
    findStructFieldLoop ptr base fs off0 acc
      = some (acc ++ [⟨name, tag, true⟩])
  | .nil, i, name, tag, ptr, base, off0, acc, hnth, _, _ => by
      rw [nthFieldT] at hnth
      exact absurd hnth (by simp)
  | .cons n2 t2 a2 ty2 gs, 0, name, tag, ptr, base, off0, acc, hnth,
      hlast, heq => by
      rw [nthFieldT] at hnth
      obtain ⟨hf, hty⟩ := Prod.mk.inj (Option.some.inj hnth)
      obtain ⟨hn2, ht2, ha2⟩ := SField.mk.inj hf
      rw [nthFieldT] at hlast
      have hgs : gs = GoFields.nil := by
        cases gs with
        | nil => rfl
        | cons n3 t3 a3 ty3 gs3 =>
            rw [nthFieldT] at hlast
            exact absurd hlast (by simp)
      subst hgs
      subst hty
      rw [hn2, ht2, ha2]
      rw [offsetAt] at heq
      rw [findStructFieldLoop, findStructFieldLoop, opt_bind_some,
        if_neg (by omega : ¬ acc.length < acc.length)]
      rw [if_pos (by omega : ptr = base + off0)]
      rw [if_pos (rfl : (⟨name, tag, true⟩ : SField).anonymous = true)]
      rw [findStructField, findStructFieldLoop]
  | .cons n2 t2 a2 ty2 gs, j + 1, name, tag, ptr, base, off0, acc, hnth,
      hlast, heq => by
      rw [nthFieldT] at hnth
      rw [nthFieldT] at hlast
      rw [offsetAt] at heq
      have hrec := findLoop_last_empty gs j name tag ptr base
        (off0 + goSize ty2) acc hnth hlast (by omega)
      rw [findStructFieldLoop, hrec, opt_bind_some]
      rw [if_pos (by simp : acc.length < (acc ++ [(⟨name, tag, true⟩ : SField)]).length)]

/-- Starting the search at a well-formed struct's own base address always
finds a strictly deeper match: the struct's first field is at offset 0,
recursively. -/
theorem findType_from_base_deeper : ∀ (gs : GoFields) (base : Nat)
    (acc : List SField), wfType (.strct gs) = true →
    ∃ r, findStructField base base (.strct gs) acc = some r ∧
      acc.length + 1 ≤ r.length
  | .nil, base, acc, hwf => by
      rw [wfType] at hwf
      exact absurd hwf (by simp)
  | .cons name tag anonymous ty gs, base, acc, hwf => by
      have hwff : wfFields (.cons name tag anonymous ty gs) = true := by
        rw [wfType] at hwf
        exact hwf
      obtain ⟨h1, h2, h3⟩ := wfFields_parts name tag anonymous ty gs hwff
      have hszty : 0 < goSize ty := wf_size_pos ty h2
      rw [findStructField, findStructFieldLoop]
      have htail : findStructFieldLoop base base gs (0 + goSize ty) acc
          = some acc := by
        refine findLoop_oor base base gs (0 + goSize ty) acc h3 (Or.inl ?_)
        omega
      rw [htail, opt_bind_some, if_neg (by omega : ¬ acc.length < acc.length),
        if_pos (by omega : base = base + 0)]
      by_cases hanon : anonymous = true
      · rw [if_pos hanon]
        cases ty with
        | leaf sz =>
            obtain ⟨gs2, hgs2⟩ := h1 hanon
            exact absurd hgs2 (by simp)
        | strct gs2 =>
            obtain ⟨r, hr, hrlen⟩ := findType_from_base_deeper gs2 (base + 0)
              (acc ++ [⟨name, tag, anonymous⟩]) h2
            refine ⟨r, ?_, ?_⟩
            · rw [show base = base + 0 from by omega] at hr ⊢
              exact hr
            · simp only [List.length_append, List.length_cons,
                List.length_nil] at hrlen
              omega
      · rw [if_neg hanon]
        exact ⟨acc ++ [⟨name, tag, anonymous⟩], rfl, by simp⟩

/-- **C3**: when the target address equals the address of an embedded
(anonymous) sub-record, the resolver recurses into that sub-record with
its segment appended; when the embedded sub-record is empty (so the
recursive search finds nothing deeper) and is the last declared field,
its own segment is the returned fallback match; and for a non-empty
well-formed embedded sub-record - whose first field's address coincides
with the sub-record's own address - the search returns a strictly deeper
path of at least two segments. -/
theorem findStructField_anonymous_recursion_fallback :
    (∀ (base : Nat) (fs : GoFields) (i : Nat) (f : SField) (gs : GoFields),
      wfFields fs = true → nthFieldT fs i = some (f, .strct gs) →
      f.anonymous = true → wfType (.strct gs) = true →
      findStructField (base + offsetAt fs i) base (.strct fs) []
        = findStructField (base + offsetAt fs i) (base + offsetAt fs i)
            (.strct gs) [f]) ∧
    (∀ (base : Nat) (fs : GoFields) (i : Nat) (name tag : String),
      nthFieldT fs i = some (⟨name, tag, true⟩, .strct .nil) →
      nthFieldT fs (i + 1) = none →
      findStructField (base + offsetAt fs i) base (.strct fs) []
        = some [⟨name, tag, true⟩]) ∧
    (∀ (base : Nat) (fs : GoFields) (i : Nat) (f : SField) (gs : GoFields),
      wfFields fs = true → nthFieldT fs i = some (f, .strct gs) →
      f.anonymous = true → wfType (.strct gs) = true →
      ∃ r, findStructField (base + offsetAt fs i) base (.strct fs) []
          = some r ∧ 2 ≤ r.length) := by
  refine ⟨findStructField_at_anon, ?_, ?_⟩
  · intro base fs i name tag hnth hlast
    rw [findStructField]
    exact findLoop_last_empty fs i name tag (base + offsetAt fs i) base 0 []
      hnth hlast (by omega)
  · intro base fs i f gs hwf hnth hanon hwfgs
    rw [findStructField_at_anon base fs i f gs hwf hnth hanon hwfgs]
    obtain ⟨r, hr, hrlen⟩ := findType_from_base_deeper gs
      (base + offsetAt fs i) [f] hwfgs
    refine ⟨r, hr, ?_⟩
    simp only [List.length_cons, List.length_nil] at hrlen
    omega

/-- Witness for C3 at the concrete records `exOuter` (recursion into the
embedded `Inner` at address coincidence, resolving two levels deeper) and
`exFallback` (embedded empty struct as last field). -/
theorem findStructField_anonymous_recursion_fallback_witness :
    findStructField 116 100 exOuter []
        = findStructField 116 116 exInner [⟨"Inner", "", true⟩] ∧
    findStructField 54 50 exFallback [] = some [⟨"E", "", true⟩] ∧
    (∃ r, findStructField 116 100 exOuter [] = some r ∧ 2 ≤ r.length) := by
  refine ⟨?_, ?_, ?_⟩
  · exact findStructField_anonymous_recursion_fallback.1 100
      (.cons "Name" "name" false (.leaf 16) (.cons "Inner" "" true exInner .nil))
      1 ⟨"Inner", "", true⟩
      (.cons "Inner2" "inner2" true exInner2 (.cons "X" "" false (.leaf 4) .nil))
      (by decide) rfl rfl (by decide)
  · exact findStructField_anonymous_recursion_fallback.2.1 50
      (.cons "X" "" false (.leaf 4) (.cons "E" "" true (.strct .nil) .nil))
      1 "E" "" rfl rfl
  · exact findStructField_anonymous_recursion_fallback.2.2 100
      (.cons "Name" "name" false (.leaf 16) (.cons "Inner" "" true exInner .nil))
      1 ⟨"Inner", "", true⟩
      (.cons "Inner2" "inner2" true exInner2 (.cons "X" "" false (.leaf 4) .nil))
      (by decide) rfl rfl (by decide)

/-- A validator whose outcome panics makes the whole collection panic. -/
theorem outcomes_error_of_mem (s : GoVal) (vm : GoEntries) :
    ∀ (vs : List RuleValidator) (v : RuleValidator), v ∈ vs →
      (∃ e, validatorOutcome s vm v = .error e) →
      ∃ e2, outcomesList s vm vs = .error e2 := by
  intro vs
  induction vs with
  | nil => intro v hv _; exact absurd hv (by simp)
  | cons w ws ih =>
      intro v hv ⟨e, he⟩
      rw [outcomesList]
      rcases List.mem_cons.mp hv with hvw | hvw
      · rw [← hvw, he, except_bind_error]
        exact ⟨e, rfl⟩
      · cases hw : validatorOutcome s vm w with
        | error e3 => rw [except_bind_error]; exact ⟨e3, rfl⟩
        | ok o =>
            rw [except_bind_ok]
            obtain ⟨e2, he2⟩ := ih v hvw ⟨e, he⟩
            rw [he2, except_bind_error]
            exact ⟨e2, rfl⟩

/-- A successful collection means every validator's outcome succeeded. -/
theorem outcomes_ok_all (s : GoVal) (vm : GoEntries) :
    ∀ (vs : List RuleValidator) (os : List VErr),
      outcomesList s vm vs = .ok os →
      ∀ v ∈ vs, ∃ o, validatorOutcome s vm v = .ok o := by
  intro vs
  induction vs with
  | nil => intro os _ v hv; exact absurd hv (by simp)
  | cons w ws ih =>
      intro os hos v hv
      rw [outcomesList] at hos
      cases hw : validatorOutcome s vm w with
      | error e => rw [hw, except_bind_error] at hos; exact absurd hos (by simp)
      | ok o =>
          rw [hw, except_bind_ok] at hos
          cases hws : outcomesList s vm ws with
          | error e =>
              rw [hws, except_bind_error] at hos
              exact absurd hos (by simp)
          | ok os2 =>
              rcases List.mem_cons.mp hv with hvw | hvw
              · exact ⟨o, hvw ▸ hw⟩
              · exact ih os2 hws v hvw

/-- **C7**: configuration errors are fatal panics, never collected as
violations.  A record reference that is not a non-nil pointer to a
struct, a field reference that is not a pointer, and a field reference
whose address no field matches all panic inside `getFieldName`
(registration time); a non-numeric value given to `Min` panics
(validation time); and `Validate` never partially fails: if any bound
validator's outcome panics, the whole call aborts with an error, while a
non-error return means every bound validator ran to completion. -/
theorem config_errors_are_fatal :
    (∀ fa, getFieldName .notPtr fa = none) ∧
    (∀ fa, getFieldName .nilPtr fa = none) ∧
    (∀ (base sz : Nat) (fa : GoPtrArg),
      getFieldName (.ref base (.leaf sz)) fa = none) ∧
    (∀ (base : Nat) (fs : GoFields),
      getFieldName (.ref base (.strct fs)) .notPtr = none) ∧
    (∀ (base : Nat) (fs : GoFields) (ptr : Nat) (fty : GoType),
      wfFields fs = true → (ptr < base ∨ base + goSizeF fs ≤ ptr) →
      getFieldName (.ref base (.strct fs)) (.ref ptr fty) = none) ∧
    (∀ (c : MinValidator) (v : GoVal), goNumericKind v = false →
      c.Validate v = .error "type not supported") ∧
    (∀ (r : Rules) (s : GoVal) (vm : GoEntries) (v : RuleValidator),
      structToMap s = .ok vm → v ∈ r.validators →
      (∃ e, validatorOutcome s vm v = .error e) →
      ∃ e2, r.Validate s = .error e2) ∧
    (∀ (r : Rules) (s : GoVal) (l : Option (List VErr)),
      r.Validate s = .ok l →
      ∃ vm, structToMap s = .ok vm ∧
        ∀ v ∈ r.validators, ∃ o, validatorOutcome s vm v = .ok o) := by
  refine ⟨fun _ => rfl, fun _ => rfl, fun _ _ _ => rfl, fun _ _ => rfl,
    ?_, ?_, ?_, ?_⟩
  · intro base fs ptr fty hwf hrange
    rw [getFieldName, getFieldNameFound]
    have hfind : findStructField ptr base (.strct fs) [] = some [] := by
      rw [findStructField]
      refine findLoop_oor ptr base fs 0 [] hwf ?_
      omega
    rw [hfind, opt_bind_some]
    rfl
  · intro c v hnum
    cases v with
    | vint n => rw [goNumericKind] at hnum; exact absurd hnum (by simp)
    | vfloat q => rw [goNumericKind] at hnum; exact absurd hnum (by simp)
    | vnil => rfl
    | vbool b => rfl
    | vstr s => rfl
    | vptrNil => rfl
    | vptr w => rfl
    | vsliceNil => rfl
    | vslice es => rfl
    | varr es => rfl
    | vmapNil => rfl
    | vmap es => rfl
    | vstruct fsv => rfl
  · intro r s vm v hm hv he
    obtain ⟨e2, he2⟩ := outcomes_error_of_mem s vm r.validators v hv he
    refine ⟨e2, ?_⟩
    rw [validate_eq_outcomes, hm, except_bind_ok, he2, except_bind_error]
  · intro r s l h
    rw [validate_eq_outcomes] at h
    cases hm : structToMap s with
    | error e => rw [hm, except_bind_error] at h; exact absurd h (by simp)
    | ok vm =>
        rw [hm, except_bind_ok] at h
        cases ho : outcomesList s vm r.validators with
        | error e => rw [ho, except_bind_error] at h; exact absurd h (by simp)
        | ok os => exact ⟨vm, rfl, outcomes_ok_all s vm r.validators os ho⟩

/-- Witness for C7, exercising each conditional conjunct at concrete
inputs: an address no field of `exOuter` matches, `Min` applied to a
string, a panicking validator inside `Validate`, and a successful
`Validate` run. -/
theorem config_errors_are_fatal_witness :
    getFieldName (.ref 100 exOuter) (.ref 99 (.leaf 8)) = none ∧
    MinValidator.Validate ⟨"tax", "", 0, false⟩ (.vstr "x")
        = .error "type not supported" ∧
    (∃ e2, Rules.Validate
        ⟨[⟨"b", fun v => MinValidator.Validate ⟨"b", "", 0, false⟩ v, true⟩]⟩
        exSubjectAB = .error e2) ∧
    (∃ vm, structToMap exSubjectAB = .ok vm ∧
      ∀ v ∈ [requiredRule "nope" ""], ∃ o,
        validatorOutcome exSubjectAB vm v = .ok o) := by
  refine ⟨?_, ?_, ?_, ?_⟩
  · exact config_errors_are_fatal.2.2.2.2.1 100
      (.cons "Name" "name" false (.leaf 16) (.cons "Inner" "" true exInner .nil))
      99 (.leaf 8) (by decide) (by omega)
  · exact config_errors_are_fatal.2.2.2.2.2.1 ⟨"tax", "", 0, false⟩
      (.vstr "x") rfl
  · exact config_errors_are_fatal.2.2.2.2.2.2.1
      ⟨[⟨"b", fun v => MinValidator.Validate ⟨"b", "", 0, false⟩ v, true⟩]⟩
      exSubjectAB (.cons "b" (.vstr "x") (.cons "a" (.vint 1) .nil))
      ⟨"b", fun v => MinValidator.Validate ⟨"b", "", 0, false⟩ v, true⟩
      rfl (by simp) ⟨"type not supported", rfl⟩
  · exact config_errors_are_fatal.2.2.2.2.2.2.2
      ⟨[requiredRule "nope" ""]⟩ exSubjectAB
      (some [⟨"Please enter the nope", "nope"⟩]) rfl
